import Mathlib

/-!
Verification of the Matchmaker engine (`src/services/matchmaker/service.ts`
and the surrounding application code).

The TypeScript `MatchmakerService` is embedded shallowly:

* `Date.now()` is an explicit `Nat` argument `t` (milliseconds) to every
  operation that reads the clock.
* A JavaScript `Map` keyed by id is a `List` in insertion order whose
  elements carry their key in the `id` field; `Map.get` is `List.find?`,
  `Map.delete` is `List.eraseP` on the key, and an in-place mutation of the
  object obtained from `Map.get` is `updateFirst` on the key.
* `generateId()` (uuid v4) is modelled by a fresh counter `nextId` in the
  state; uniqueness of generated ids becomes the invariant that every id
  stored in the state is `< nextId`.
* The optional field `lastRedirect?: number` is `Option Nat`; JavaScript
  truthiness of `server.lastRedirect` is `some v` with `v ≠ 0` (the code
  assigns the falsy value `0` to it in the `clientDisconnected` branch).
* `numConnectedClients` is `Int`, so that non-negativity is a property of
  the code, not of the embedding.
* `this.emit(...)` is an event appended to a returned event list.
-/

inductive SessionStatus where
  | queued | connected | disconnected | expired
deriving DecidableEq, Repr

/-- `CirrusServer` from `src/types` (part_002). -/
structure CirrusServer where
  id : Nat
  address : String
  port : Nat
  https : Bool
  numConnectedClients : Int
  lastPingReceived : Nat
  ready : Bool
  lastRedirect : Option Nat := none
  metadata : List (String × String) := []
deriving DecidableEq, Repr

/-- `ClientSession` from `src/types` (part_002). -/
structure ClientSession where
  id : Nat
  clientId : Option String
  serverId : Option Nat := none
  createdAt : Nat
  lastActivity : Nat
  status : SessionStatus
  priority : Int
deriving DecidableEq, Repr

/-- The message kinds handled by the service (`MatchmakerMessage.type`). -/
inductive MsgType where
  | connect | disconnect | streamerConnected | streamerDisconnected
  | clientConnected | clientDisconnected | ping | healthCheck
deriving DecidableEq, Repr

/-- The fields of `MatchmakerMessage` read by `registerServer`.  The
TypeScript code dereferences `message.address!` and `message.port!`, so they
are modelled as present; the other fields keep their optionality and the
code's defaulting (`https || false`, `ready === true`,
`playerConnected ? 1 : 0`, `metadata || {}`). -/
structure ConnectMsg where
  address : String
  port : Nat
  https : Option Bool := none
  ready : Option Bool := none
  playerConnected : Option Bool := none
  metadata : Option (List (String × String)) := none
deriving DecidableEq, Repr

inductive MMEvent where
  | serverRegistered (s : CirrusServer)
  | serverUpdated (s : CirrusServer)
  | serverUnregistered (s : CirrusServer)
  | clientQueued (s : ClientSession)
  | clientAssigned (s : ClientSession) (srv : CirrusServer)
  | sessionRemoved (s : ClientSession)
deriving DecidableEq, Repr

/-- The mutable state of a `MatchmakerService` instance. -/
structure MMState where
  cirrusServers : List CirrusServer := []
  clientSessions : List ClientSession := []
  queueOrder : List Nat := []
  nextId : Nat := 0
deriving DecidableEq, Repr

/-- Mutate (in place) the first element satisfying `p`; the model of
mutating the object returned by `Map.get`. -/
def updateFirst (p : α → Bool) (f : α → α) : List α → List α
  | [] => []
  | x :: xs => if p x then f x :: xs else x :: updateFirst p f xs

/-- `isExpired` from `src/common/utils` (part_004):
`(now() - timestamp) > timeoutMs`. -/
def isExpired (t timestamp timeoutMs : Nat) : Bool :=
  (t - timestamp) > timeoutMs

/-- `isServerAvailable` (service.ts:253-264).  The cooldown test
`server.lastRedirect && (now() - server.lastRedirect) < 10000` uses the JS
truthiness of `lastRedirect`. -/
def isServerAvailable (t : Nat) (server : CirrusServer) : Bool :=
  if !server.ready || server.numConnectedClients > 0 then
    false
  else if (match server.lastRedirect with
           | some r => r ≠ 0 && (t - r) < 10000
           | none => false : Bool) then
    false
  else
    true

/-- `findServerByAddress` (service.ts:269-273). -/
def findServerByAddress (address : String) (port : Nat) (st : MMState) :
    Option CirrusServer :=
  st.cirrusServers.find? (fun s => s.address = address && s.port == port)

/-- `registerServer` (service.ts:21-55).  Returns the new state, the emitted
events and the new server id.  Note that the eviction of an existing server
with the same `(address, port)` calls `this.cirrusServers.delete` directly
and emits nothing for the evicted entry. -/
def registerServer (t : Nat) (msg : ConnectMsg) (st : MMState) :
    MMState × List MMEvent × Nat :=
  let serverId := st.nextId
  let server : CirrusServer :=
    { id := serverId
      address := msg.address
      port := msg.port
      https := msg.https.getD false
      numConnectedClients := if msg.playerConnected.getD false then 1 else 0
      lastPingReceived := t
      ready := msg.ready.getD false
      lastRedirect := none
      metadata := msg.metadata.getD [] }
  let servers :=
    match findServerByAddress server.address server.port st with
    | some existing => st.cirrusServers.eraseP (fun s => s.id == existing.id)
    | none => st.cirrusServers
  ({ st with cirrusServers := servers ++ [server], nextId := st.nextId + 1 },
   [MMEvent.serverRegistered server], serverId)

/-- `updateServerStatus` (service.ts:60-93).  The `switch` falls through for
any message type other than the five listed ones, and `serverUpdated` is
emitted whenever the server exists, whatever the type. -/
def updateServerStatus (t : Nat) (serverId : Nat) (msgType : MsgType)
    (st : MMState) : MMState × List MMEvent :=
  match st.cirrusServers.find? (fun s => s.id == serverId) with
  | none => (st, [])
  | some server =>
    let server' : CirrusServer :=
      match msgType with
      | .streamerConnected => { server with ready := true }
      | .streamerDisconnected => { server with ready := false }
      | .clientConnected =>
          { server with numConnectedClients := server.numConnectedClients + 1 }
      | .clientDisconnected =>
          let n := max 0 (server.numConnectedClients - 1)
          if n = 0 then
            { server with numConnectedClients := n, lastRedirect := some 0 }
          else
            { server with numConnectedClients := n }
      | .ping => { server with lastPingReceived := t }
      | _ => server
    let servers' :=
      updateFirst (fun s => s.id == serverId) (fun _ => server')
        st.cirrusServers
    ({ st with cirrusServers := servers' }, [MMEvent.serverUpdated server'])

/-- `unregisterServer` (service.ts:98-105). -/
def unregisterServer (serverId : Nat) (st : MMState) : MMState × List MMEvent :=
  match st.cirrusServers.find? (fun s => s.id == serverId) with
  | none => (st, [])
  | some server =>
    let servers' := st.cirrusServers.eraseP (fun s => s.id == serverId)
    ({ st with cirrusServers := servers' },
     [MMEvent.serverUnregistered server])

/-- `getAvailableServer` (service.ts:110-126): scan the registry in
insertion order, mutate the first available server's `lastRedirect` to `now`
and return it (the returned object is the mutated one). -/
def getAvailableServer (t : Nat) (st : MMState) :
    MMState × Option CirrusServer :=
  match st.cirrusServers.find? (fun s => isServerAvailable t s) with
  | some server =>
    let servers' :=
      updateFirst (fun s => isServerAvailable t s)
        (fun s => { s with lastRedirect := some t }) st.cirrusServers
    ({ st with cirrusServers := servers' },
     some { server with lastRedirect := some t })
  | none => (st, none)

/-- `Map.set`: replace in place when the key is present, append otherwise. -/
def mapSet (key : α → Nat) (v : α) (l : List α) : List α :=
  if l.any (fun x => key x == key v) then
    updateFirst (fun x => key x == key v) (fun _ => v) l
  else
    l ++ [v]

/-- `addToQueue` (service.ts:131-164).  The new session is first `set` into
the session map, then inserted into `queueOrder` before the first session of
strictly smaller priority (`findIndex` over the updated map; a queue id that
does not resolve is skipped by the `otherSession &&` guard); `push` when
there is none. -/
def addToQueue (t : Nat) (clientId : Option String) (priority : Int)
    (st : MMState) : MMState × List MMEvent × ClientSession :=
  let session : ClientSession :=
    { id := st.nextId
      clientId := clientId
      serverId := none
      createdAt := t
      lastActivity := t
      status := .queued
      priority := priority }
  let sessions' := mapSet ClientSession.id session st.clientSessions
  let insertIndex := st.queueOrder.findIdx? (fun sessionId =>
    match sessions'.find? (fun c => c.id == sessionId) with
    | some otherSession => otherSession.priority < priority
    | none => false)
  let queue' :=
    match insertIndex with
    | none => st.queueOrder ++ [session.id]
    | some i => st.queueOrder.insertIdx i session.id
  ({ st with clientSessions := sessions', queueOrder := queue',
             nextId := st.nextId + 1 },
   [MMEvent.clientQueued session], session)

/-- `processNextInQueue` (service.ts:183-208).  A single assignment step:
`shift` the head of the queue after a server was acquired; the defensive
`if (session)` branch returns `false` when the popped id does not resolve. -/
def processNextInQueue (t : Nat) (st : MMState) :
    MMState × List MMEvent × Bool :=
  match st.queueOrder with
  | [] => (st, [], false)
  | sessionId :: rest =>
    match getAvailableServer t st with
    | (st1, none) => (st1, [], false)
    | (st1, some server) =>
      let st2 := { st1 with queueOrder := rest }
      match st2.clientSessions.find? (fun c => c.id == sessionId) with
      | some session =>
        let session' : ClientSession :=
          { session with serverId := some server.id, status := .connected,
                         lastActivity := t }
        let sessions' :=
          updateFirst (fun c => c.id == sessionId) (fun _ => session')
            st2.clientSessions
        ({ st2 with clientSessions := sessions' },
         [MMEvent.clientAssigned session' server], true)
      | none => (st2, [], false)

/-- `removeSession` (service.ts:213-224): delete from the session map and
splice the id out of the queue (`indexOf`/`splice` = erase the first
occurrence); no-op when the session does not exist. -/
def removeSession (sessionId : Nat) (st : MMState) : MMState × List MMEvent :=
  match st.clientSessions.find? (fun c => c.id == sessionId) with
  | none => (st, [])
  | some session =>
    let sessions' := st.clientSessions.eraseP (fun c => c.id == sessionId)
    let queue' := st.queueOrder.erase sessionId
    ({ st with clientSessions := sessions', queueOrder := queue' },
     [MMEvent.sessionRemoved session])

/-- The record returned by `getStats` (service.ts:229-241). -/
structure MMStats where
  totalServers : Nat
  availableServers : Nat
  totalClients : Int
  queueLength : Nat
  activeSessions : Nat
deriving DecidableEq, Repr

/-- `getStats` (service.ts:229-241). -/
def getStats (t : Nat) (st : MMState) : MMStats :=
  { totalServers := st.cirrusServers.length
    availableServers := st.cirrusServers.countP (fun s => isServerAvailable t s)
    totalClients :=
      st.cirrusServers.foldl (fun sum s => sum + s.numConnectedClients) 0
    queueLength := st.queueOrder.length
    activeSessions := st.clientSessions.length }

/-- `cleanupExpiredSessions` (service.ts:286-295): iterate the entries of
the session map as they were at the start of the sweep, removing each
expired one (`now − lastActivity > SessionTimeoutMs`). -/
def cleanupExpiredSessions (t timeoutMs : Nat) (st : MMState) :
    MMState × List MMEvent :=
  st.clientSessions.foldl
    (fun acc session =>
      if isExpired t session.lastActivity timeoutMs then
        let r := removeSession session.id acc.1
        (r.1, acc.2 ++ r.2)
      else acc)
    (st, [])

/-- `cleanupStaleServers` (service.ts:301-309): unregister every server with
`now − lastPingReceived > 120000`. -/
def cleanupStaleServers (t : Nat) (st : MMState) : MMState × List MMEvent :=
  st.cirrusServers.foldl
    (fun acc server =>
      if isExpired t server.lastPingReceived 120000 then
        let r := unregisterServer server.id acc.1
        (r.1, acc.2 ++ r.2)
      else acc)
    (st, [])

theorem getAvailableServer_queueOrder (t : Nat) (st : MMState) :
    (getAvailableServer t st).1.queueOrder = st.queueOrder := by
  unfold getAvailableServer
  cases st.cirrusServers.find? (fun s => isServerAvailable t s) <;> rfl

theorem processNextInQueue_true_length {t : Nat} {st st' : MMState}
    {evs : List MMEvent}
    (h : processNextInQueue t st = (st', evs, true)) :
    st'.queueOrder.length < st.queueOrder.length := by
  unfold processNextInQueue at h
  rcases hq : st.queueOrder with _ | ⟨sid, rest⟩ <;> rw [hq] at h
  · simp at h
  · rcases hg : getAvailableServer t st with ⟨st1, srvOpt⟩
    rw [hg] at h
    rcases srvOpt with _ | server
    · simp at h
    · dsimp only at h
      rcases hf : st1.clientSessions.find? (fun c => c.id == sid) with _ | sess <;>
        rw [hf] at h
      · simp at h
      · simp only [Prod.mk.injEq] at h
        obtain ⟨h1, -, -⟩ := h
        rw [← h1]
        simp [hq]

/-- `processQueue` from the application class `EnhancedMatchmaker`
(tests/matchmaker.test.ts, concatenated `index.ts`, lines 570-576):
`let processed = true; while (processed) processed = processNextInQueue()`.
Terminates because each successful step shortens the queue. -/
def processQueue (t : Nat) (st : MMState) : MMState × List MMEvent :=
  match h : processNextInQueue t st with
  | (st', evs, true) =>
    let r := processQueue t st'
    (r.1, evs ++ r.2)
  | (st', evs, false) => (st', evs)
termination_by st.queueOrder.length
decreasing_by exact processNextInQueue_true_length h

/-! ## Traces

A public operation of the service, with the clock value at which it runs.
`Reachable` states are those produced by some operation sequence from a
fresh `MatchmakerService` instance. -/

inductive MMOp where
  | register (t : Nat) (msg : ConnectMsg)
  | update (t : Nat) (serverId : Nat) (msgType : MsgType)
  | unregister (serverId : Nat)
  | acquire (t : Nat)
  | enqueue (t : Nat) (clientId : Option String) (priority : Int)
  | processNext (t : Nat)
  | drain (t : Nat)
  | remove (sessionId : Nat)
  | sweepSessions (t : Nat) (timeoutMs : Nat)
  | sweepServers (t : Nat)
deriving DecidableEq, Repr

def step (st : MMState) : MMOp → MMState
  | .register t msg => (registerServer t msg st).1
  | .update t id mt => (updateServerStatus t id mt st).1
  | .unregister id => (unregisterServer id st).1
  | .acquire t => (getAvailableServer t st).1
  | .enqueue t cid p => (addToQueue t cid p st).1
  | .processNext t => (processNextInQueue t st).1
  | .drain t => (processQueue t st).1
  | .remove sid => (removeSession sid st).1
  | .sweepSessions t m => (cleanupExpiredSessions t m st).1
  | .sweepServers t => (cleanupStaleServers t st).1

def runOps (ops : List MMOp) (st : MMState) : MMState := ops.foldl step st

def initState : MMState := {}

def Reachable (st : MMState) : Prop := ∃ ops, st = runOps ops initState

/-! ## List helper lemmas -/

theorem updateFirst_of_forall_neg {p : α → Bool} {f : α → α} {l : List α}
    (h : ∀ x ∈ l, p x = false) : updateFirst p f l = l := by
  induction l with
  | nil => rfl
  | cons x xs ih =>
    simp only [updateFirst, h x (by simp), Bool.false_eq_true, if_false,
      List.cons.injEq, true_and]
    exact ih (fun y hy => h y (by simp [hy]))

theorem map_key_updateFirst (key : α → Nat) (k : Nat) (g : α → α)
    (l : List α) (hg : ∀ x, key x = k → key (g x) = key x) :
    (updateFirst (fun x => key x == k) g l).map key = l.map key := by
  induction l with
  | nil => rfl
  | cons x xs ih =>
    by_cases hx : key x = k
    · simp [updateFirst, hx, hg x hx]
    · simp [updateFirst, hx, ih]

theorem find?_updateFirst_eq (key : α → Nat) (k : Nat) (g : α → α)
    (l : List α) (hg : ∀ x, key x = k → key (g x) = k) :
    (updateFirst (fun x => key x == k) g l).find? (fun x => key x == k) =
      (l.find? (fun x => key x == k)).map g := by
  induction l with
  | nil => rfl
  | cons x xs ih =>
    by_cases hx : key x = k
    · simp [updateFirst, List.find?_cons, hx, hg x hx]
    · simp [updateFirst, List.find?_cons, hx, ih]

theorem find?_updateFirst_ne (key : α → Nat) (k j : Nat) (g : α → α)
    (l : List α) (hg : ∀ x, key x = k → key (g x) = k) (hjk : j ≠ k) :
    (updateFirst (fun x => key x == k) g l).find? (fun x => key x == j) =
      l.find? (fun x => key x == j) := by
  induction l with
  | nil => rfl
  | cons x xs ih =>
    by_cases hx : key x = k
    · have h1 : (key x == k) = true := by simp [hx]
      have h2 : (key (g x) == j) = false := by simp [hg x hx, Ne.symm hjk]
      have h3 : (key x == j) = false := by simp [hx, Ne.symm hjk]
      simp [updateFirst, h1, List.find?_cons, h2, h3]
    · have h1 : (key x == k) = false := by simp [hx]
      simp only [updateFirst, h1, Bool.false_eq_true, if_false]
      rcases hxj : (key x == j) with _ | _ <;>
        simp [List.find?_cons, hxj, ih]

theorem find?_eraseP_ne (key : α → Nat) (k j : Nat) (l : List α)
    (hjk : j ≠ k) :
    (l.eraseP (fun x => key x == k)).find? (fun x => key x == j) =
      l.find? (fun x => key x == j) := by
  induction l with
  | nil => rfl
  | cons x xs ih =>
    by_cases hx : key x = k
    · have h1 : (key x == k) = true := by simp [hx]
      have h3 : (key x == j) = false := by simp [hx, Ne.symm hjk]
      simp [List.eraseP_cons, h1, List.find?_cons, h3]
    · have h1 : (key x == k) = false := by simp [hx]
      simp only [List.eraseP_cons, h1, cond_false]
      rcases hxj : (key x == j) with _ | _ <;>
        simp [List.find?_cons, hxj, ih]

theorem mapSet_of_fresh (key : α → Nat) (v : α) (l : List α)
    (h : ∀ x ∈ l, key x ≠ key v) : mapSet key v l = l ++ [v] := by
  unfold mapSet
  have : l.any (fun x => key x == key v) = false := by
    simp only [List.any_eq_false]
    intro x hx
    simp [h x hx]
  simp [this]

theorem find?_append_of_none {p : α → Bool} {l₁ l₂ : List α}
    (h : l₁.find? p = none) : (l₁ ++ l₂).find? p = l₂.find? p := by
  induction l₁ with
  | nil => rfl
  | cons x xs ih =>
    rcases hx : p x with _ | _
    · simp only [List.cons_append, List.find?_cons, hx] at h ⊢
      exact ih h
    · simp [List.find?_cons, hx] at h

theorem find?_append_of_some {p : α → Bool} {l₁ l₂ : List α} {x : α}
    (h : l₁.find? p = some x) : (l₁ ++ l₂).find? p = some x := by
  induction l₁ with
  | nil => simp at h
  | cons y ys ih =>
    rcases hy : p y with _ | _
    · simp only [List.cons_append, List.find?_cons, hy] at h ⊢
      exact ih h
    · simp only [List.cons_append, List.find?_cons, hy] at h ⊢
      exact h

theorem findIdx?_congr {p q : α → Bool} :
    ∀ (l : List α) (i : Nat), (∀ x ∈ l, p x = q x) →
      l.findIdx? p i = l.findIdx? q i := by
  intro l
  induction l with
  | nil => intro i _; rfl
  | cons x xs ih =>
    intro i h
    rw [List.findIdx?_cons, List.findIdx?_cons, h x (by simp),
      ih (i + 1) (fun y hy => h y (by simp [hy]))]

/-- The queue-insertion discipline of `addToQueue`, abstracted over the
priority lookup: insert before the first element of strictly smaller
priority, append if there is none. -/
def insertByPrio (pr : Nat → Int) (n : Nat) (q : List Nat) : List Nat :=
  match q.findIdx? (fun x => pr x < pr n) with
  | none => q ++ [n]
  | some i => q.insertIdx i n

theorem insertByPrio_cons (pr : Nat → Int) (n x : Nat) (xs : List Nat) :
    insertByPrio pr n (x :: xs) =
      if pr x < pr n then n :: x :: xs else x :: insertByPrio pr n xs := by
  unfold insertByPrio
  rw [List.findIdx?_cons]
  by_cases hx : pr x < pr n
  · simp [hx]
  · simp only [hx, decide_False, Bool.false_eq_true, if_false,
      List.findIdx?_succ]
    rcases hfi : xs.findIdx? (fun y => decide (pr y < pr n)) with _ | j
    · simp
    · simp [List.insertIdx_succ_cons]

theorem mem_insertByPrio {pr : Nat → Int} {n y : Nat} :
    ∀ {q : List Nat}, y ∈ insertByPrio pr n q → y = n ∨ y ∈ q := by
  intro q
  induction q with
  | nil =>
    intro hy
    unfold insertByPrio at hy
    simp at hy
    simp [hy]
  | cons x xs ih =>
    intro hy
    rw [insertByPrio_cons] at hy
    by_cases hx : pr x < pr n
    · simp only [hx, if_true, List.mem_cons] at hy ⊢
      tauto
    · simp only [hx, if_false, List.mem_cons] at hy
      rcases hy with rfl | hy
      · simp
      · rcases ih hy with rfl | h
        · simp
        · simp [h]

theorem nodup_insertByPrio {pr : Nat → Int} {n : Nat} :
    ∀ {q : List Nat}, q.Nodup → n ∉ q → (insertByPrio pr n q).Nodup := by
  intro q
  induction q with
  | nil => intro _ _; simp [insertByPrio]
  | cons x xs ih =>
    intro hq hn
    rw [insertByPrio_cons]
    by_cases hx : pr x < pr n
    · simp only [hx, if_true, List.nodup_cons]
      exact ⟨hn, List.nodup_cons.mp hq⟩
    · simp only [hx, if_false, List.nodup_cons]
      rw [List.nodup_cons] at hq
      constructor
      · intro hmem
        rcases mem_insertByPrio hmem with rfl | h
        · exact hn (by simp)
        · exact hq.1 h
      · exact ih hq.2 (fun h => hn (by simp [h]))

/-- The queue ordering relation: strictly larger priority first, FIFO
(id creation order) among equal priorities. -/
def QRel (pr : Nat → Int) (a b : Nat) : Prop :=
  pr b < pr a ∨ (pr a = pr b ∧ a < b)

theorem pairwise_insertByPrio {pr : Nat → Int} {n : Nat} :
    ∀ {q : List Nat}, q.Pairwise (QRel pr) → (∀ x ∈ q, x < n) →
      (insertByPrio pr n q).Pairwise (QRel pr) := by
  intro q
  induction q with
  | nil => intro _ _; simp [insertByPrio]
  | cons x xs ih =>
    intro hq hn
    rw [List.pairwise_cons] at hq
    rw [insertByPrio_cons]
    by_cases hx : pr x < pr n
    · simp only [hx, if_true]
      refine List.Pairwise.cons ?_ (List.Pairwise.cons hq.1 hq.2)
      intro y hy
      rcases List.mem_cons.mp hy with rfl | hy
      · exact Or.inl hx
      · rcases hq.1 y hy with h | ⟨he, _⟩
        · exact Or.inl (h.trans hx)
        · exact Or.inl (he ▸ hx)
    · simp only [hx, if_false]
      refine List.Pairwise.cons ?_ (ih hq.2 (fun z hz => hn z (by simp [hz])))
      intro y hy
      rcases mem_insertByPrio hy with rfl | hy
      · rcases eq_or_lt_of_le (not_lt.mp hx) with he | hlt
        · exact Or.inr ⟨he.symm, hn x (by simp)⟩
        · exact Or.inl hlt
      · exact hq.1 y hy

theorem find?_key_eq (key : α → Nat) {l : List α} {k : Nat} {x : α}
    (h : l.find? (fun y => key y == k) = some x) : key x = k := by
  have := List.find?_some h
  simpa using this

/-! ## Invariants of reachable states -/

/-- Priority of a queue entry, looked up in a session list (`0` if the id
does not resolve, matching the `getD` reading of a failed lookup). -/
def prioOf (sessions : List ClientSession) (sid : Nat) : Int :=
  ((sessions.find? (fun c => c.id == sid)).map ClientSession.priority).getD 0

/-- Ids generated so far are below the fresh-id counter and distinct; the
model of uuid uniqueness. -/
def WFIds (st : MMState) : Prop :=
  (∀ s ∈ st.cirrusServers, s.id < st.nextId) ∧
  (st.cirrusServers.map CirrusServer.id).Nodup ∧
  (∀ c ∈ st.clientSessions, c.id < st.nextId) ∧
  (st.clientSessions.map ClientSession.id).Nodup

/-- Every queue entry occurs once and resolves to a `queued` session. -/
def QueueOK (st : MMState) : Prop :=
  st.queueOrder.Nodup ∧
  ∀ sid ∈ st.queueOrder,
    ∃ c, st.clientSessions.find? (fun x => x.id == sid) = some c ∧
      c.status = .queued

/-- The queue is ordered by descending priority, FIFO (creation order of
ids) among equal priorities. -/
def QueueSorted (st : MMState) : Prop :=
  st.queueOrder.Pairwise (QRel (prioOf st.clientSessions))

def MMInv (st : MMState) : Prop := WFIds st ∧ QueueOK st ∧ QueueSorted st

theorem countP_updateFirst {p : α → Bool} {f : α → α} {l : List α} {x : α}
    (hfind : l.find? p = some x) (hf : ∀ a, p a = true → p (f a) = false) :
    (updateFirst p f l).countP p + 1 = l.countP p := by
  induction l with
  | nil => simp at hfind
  | cons y ys ih =>
    rcases hy : p y with _ | _
    · simp only [List.find?_cons, hy] at hfind
      have hrec := ih hfind
      simp only [updateFirst, hy, Bool.false_eq_true, if_false,
        List.countP_cons, hy]
      omega
    · simp only [updateFirst, hy, if_true]
      simp [List.countP_cons, hy, hf y hy]


theorem map_key_updateFirst_any (key : α → Nat) (p : α → Bool) (g : α → α)
    (l : List α) (hg : ∀ x, p x = true → key (g x) = key x) :
    (updateFirst p g l).map key = l.map key := by
  induction l with
  | nil => rfl
  | cons x xs ih =>
    rcases hx : p x with _ | _
    · simp [updateFirst, hx, ih]
    · simp [updateFirst, hx, hg x hx]

theorem MMInv_mk_servers {st : MMState} {servers' : List CirrusServer}
    {nid' : Nat} (h : MMInv st) (hn : st.nextId ≤ nid')
    (hids : ∀ s ∈ servers', s.id < nid')
    (hnd : (servers'.map CirrusServer.id).Nodup) :
    MMInv { st with cirrusServers := servers', nextId := nid' } := by
  obtain ⟨⟨_, _, hc1, hc2⟩, hq, hsort⟩ := h
  refine ⟨⟨hids, hnd, ?_, hc2⟩, hq, hsort⟩
  exact fun c hc => lt_of_lt_of_le (hc1 c hc) hn

/-- `MMInv` holds again after a change to the server registry that keeps the
list of server ids intact. -/
theorem MMInv_mk_servers_same_ids {st : MMState} {servers' : List CirrusServer}
    (h : MMInv st)
    (hmap : servers'.map CirrusServer.id = st.cirrusServers.map CirrusServer.id) :
    MMInv { st with cirrusServers := servers' } := by
  have hs1 := h.1.1
  have hs2 := h.1.2.1
  refine MMInv_mk_servers h (le_refl _) ?_ ?_
  · intro s hs
    have hmem : s.id ∈ servers'.map CirrusServer.id := List.mem_map_of_mem _ hs
    rw [hmap] at hmem
    rcases List.mem_map.mp hmem with ⟨x, hx, hid⟩
    exact hid ▸ hs1 x hx
  · rw [hmap]; exact hs2

/-- `MMInv` after appending a freshly numbered server to a sublist of the
registry and bumping the counter; the common shape of both branches of
`registerServer`. -/
theorem MMInv_register_aux {st : MMState} {pre : List CirrusServer}
    {server : CirrusServer} (h : MMInv st)
    (hsub : pre.Sublist st.cirrusServers) (hid : server.id = st.nextId) :
    MMInv { st with cirrusServers := pre ++ [server],
                    nextId := st.nextId + 1 } := by
  have hs1 := h.1.1
  have hs2 := h.1.2.1
  refine MMInv_mk_servers h (Nat.le_succ _) ?_ ?_
  · intro s hs
    rcases List.mem_append.mp hs with hs | hs
    · exact lt_of_lt_of_le (hs1 s (hsub.mem hs)) (Nat.le_succ _)
    · simp only [List.mem_singleton] at hs
      subst hs
      rw [hid]
      exact Nat.lt_succ_self _
  · have hnd' := (hsub.map CirrusServer.id).nodup hs2
    have hfresh : server.id ∉ pre.map CirrusServer.id := by
      intro hmem'
      rcases List.mem_map.mp hmem' with ⟨s, hs, hsid⟩
      rw [hid] at hsid
      exact absurd hsid (Nat.ne_of_lt (hs1 s (hsub.mem hs)))
    simp [List.nodup_append, hnd', hfresh]

theorem MMInv_registerServer {st : MMState} (t : Nat) (msg : ConnectMsg)
    (h : MMInv st) : MMInv (registerServer t msg st).1 := by
  unfold registerServer
  dsimp only
  rcases hreg : findServerByAddress msg.address msg.port st with _ | existing
  · exact MMInv_register_aux h (List.Sublist.refl _) rfl
  · exact MMInv_register_aux h (List.eraseP_sublist _) rfl

theorem MMInv_updateServerStatus {st : MMState} (t serverId : Nat)
    (mt : MsgType) (h : MMInv st) :
    MMInv (updateServerStatus t serverId mt st).1 := by
  unfold updateServerStatus
  rcases hf : st.cirrusServers.find? (fun s => s.id == serverId) with _ | server
  · rw [hf]; exact h
  · rw [hf]
    dsimp only
    have hkey : server.id = serverId := find?_key_eq CirrusServer.id hf
    apply MMInv_mk_servers_same_ids h
    apply map_key_updateFirst_any
    intro x hx
    have hxid : x.id = serverId := by simpa using hx
    rw [hxid, ← hkey]
    cases mt <;> (try rfl) <;> dsimp only <;> split <;> rfl

theorem MMInv_unregisterServer {st : MMState} (serverId : Nat)
    (h : MMInv st) : MMInv (unregisterServer serverId st).1 := by
  unfold unregisterServer
  rcases hf : st.cirrusServers.find? (fun s => s.id == serverId) with _ | server
  · rw [hf]; exact h
  · rw [hf]
    dsimp only
    have hs1 := h.1.1
    have hs2 := h.1.2.1
    have hsub := @List.eraseP_sublist _ (fun s => s.id == serverId)
      st.cirrusServers
    refine MMInv_mk_servers h (le_refl _) ?_ ?_
    · exact fun s hs => hs1 s (hsub.mem hs)
    · exact (hsub.map _).nodup hs2

theorem MMInv_getAvailableServer {st : MMState} (t : Nat)
    (h : MMInv st) : MMInv (getAvailableServer t st).1 := by
  unfold getAvailableServer
  rcases hf : st.cirrusServers.find? (fun s => isServerAvailable t s) with _ | srv
  · exact h
  · dsimp only
    apply MMInv_mk_servers_same_ids h
    exact map_key_updateFirst_any CirrusServer.id _ _ _ (fun x _ => rfl)

theorem prioOf_eraseP_ne (l : List ClientSession) (k j : Nat) (hjk : j ≠ k) :
    prioOf (l.eraseP (fun c => c.id == k)) j = prioOf l j := by
  unfold prioOf
  rw [find?_eraseP_ne ClientSession.id k j l hjk]

theorem prioOf_updateFirst_ne (l : List ClientSession) (k j : Nat)
    (g : ClientSession → ClientSession)
    (hg : ∀ x, ClientSession.id x = k → (g x).id = k) (hjk : j ≠ k) :
    prioOf (updateFirst (fun c => c.id == k) g l) j = prioOf l j := by
  unfold prioOf
  rw [find?_updateFirst_ne ClientSession.id k j g l hg hjk]

theorem MMInv_removeSession {st : MMState} (sid : Nat)
    (h : MMInv st) : MMInv (removeSession sid st).1 := by
  unfold removeSession
  rcases hf : st.clientSessions.find? (fun c => c.id == sid) with _ | session
  · rw [hf]; exact h
  · rw [hf]
    dsimp only
    obtain ⟨⟨hs1, hs2, hc1, hc2⟩, ⟨hqnd, hqres⟩, hsort⟩ := h
    have hsub := @List.eraseP_sublist _ (fun c => c.id == sid)
      st.clientSessions
    refine ⟨⟨hs1, hs2, ?_, ?_⟩, ⟨?_, ?_⟩, ?_⟩
    · exact fun c hc => hc1 c (hsub.mem hc)
    · exact (hsub.map _).nodup hc2
    · exact ((List.erase_sublist sid st.queueOrder)).nodup hqnd
    · intro sid' hmem
      have hm := (hqnd.mem_erase_iff).mp hmem
      obtain ⟨c, hcf, hcq⟩ := hqres sid' hm.2
      refine ⟨c, ?_, hcq⟩
      rw [find?_eraseP_ne ClientSession.id sid sid' _ hm.1]
      exact hcf
    · have hpair : (st.queueOrder.erase sid).Pairwise
          (QRel (prioOf st.clientSessions)) :=
        hsort.sublist (List.erase_sublist sid st.queueOrder)
      refine hpair.imp_of_mem ?_
      intro a b ha hb hr
      have ha' := (hqnd.mem_erase_iff).mp ha
      have hb' := (hqnd.mem_erase_iff).mp hb
      unfold QRel at hr ⊢
      rw [prioOf_eraseP_ne _ _ _ ha'.1, prioOf_eraseP_ne _ _ _ hb'.1]
      exact hr

theorem find?_fresh_append {sessions : List ClientSession}
    {session : ClientSession} (hfresh : ∀ c ∈ sessions, c.id ≠ session.id) :
    (sessions ++ [session]).find? (fun c => c.id == session.id) =
      some session := by
  rw [find?_append_of_none]
  · simp
  · exact List.find?_eq_none.mpr (fun x hx => by simp [hfresh x hx])

/-- Invariant preservation for the enqueue shape: append a fresh `queued`
session to the session map and insert its id by priority. -/
theorem MMInv_enqueue_aux (st : MMState) (session : ClientSession)
    (hid : session.id = st.nextId) (hstatus : session.status = .queued)
    (h : MMInv st) :
    MMInv { st with
      clientSessions := st.clientSessions ++ [session],
      queueOrder := insertByPrio (prioOf (st.clientSessions ++ [session]))
        session.id st.queueOrder,
      nextId := st.nextId + 1 } := by
  obtain ⟨⟨hs1, hs2, hc1, hc2⟩, ⟨hqnd, hqres⟩, hsort⟩ := h
  have hfresh : ∀ c ∈ st.clientSessions, c.id ≠ session.id :=
    fun c hc => hid ▸ Nat.ne_of_lt (hc1 c hc)
  have hlt : ∀ x ∈ st.queueOrder, x < session.id := by
    intro x hx
    obtain ⟨c, hcf, _⟩ := hqres x hx
    have hcid : c.id = x := find?_key_eq ClientSession.id hcf
    have := hc1 c (List.mem_of_find?_eq_some hcf)
    rw [hid]
    exact hcid ▸ this
  have hnotmem : session.id ∉ st.queueOrder :=
    fun hmem => absurd rfl (Nat.ne_of_lt (hlt _ hmem))
  have hpr_eq : ∀ j ∈ st.queueOrder,
      prioOf (st.clientSessions ++ [session]) j =
        prioOf st.clientSessions j := by
    intro j hj
    obtain ⟨c, hcf, _⟩ := hqres j hj
    unfold prioOf
    rw [find?_append_of_some hcf, hcf]
  refine ⟨⟨?_, hs2, ?_, ?_⟩, ⟨?_, ?_⟩, ?_⟩
  · exact fun s hs => lt_of_lt_of_le (hs1 s hs) (Nat.le_succ _)
  · intro c hc
    rcases List.mem_append.mp hc with hc | hc
    · exact lt_of_lt_of_le (hc1 c hc) (Nat.le_succ _)
    · simp only [List.mem_singleton] at hc
      subst hc
      rw [hid]
      exact Nat.lt_succ_self _
  · have hidmem : session.id ∉ st.clientSessions.map ClientSession.id := by
      intro hmem'
      rcases List.mem_map.mp hmem' with ⟨c, hc, hcid⟩
      exact hfresh c hc hcid
    simp [List.nodup_append, hc2, hidmem]
  · exact nodup_insertByPrio hqnd hnotmem
  · intro y hy
    rcases mem_insertByPrio hy with rfl | hy
    · exact ⟨session, find?_fresh_append hfresh, hstatus⟩
    · obtain ⟨c, hcf, hcq⟩ := hqres y hy
      exact ⟨c, find?_append_of_some hcf, hcq⟩
  · apply pairwise_insertByPrio ?_ hlt
    refine hsort.imp_of_mem ?_
    intro a b ha hb hr
    unfold QRel at hr ⊢
    rw [hpr_eq a ha, hpr_eq b hb]
    exact hr

theorem MMInv_addToQueue {st : MMState} (t : Nat) (cid : Option String)
    (p : Int) (h : MMInv st) : MMInv (addToQueue t cid p st).1 := by
  obtain ⟨⟨hs1, hs2, hc1, hc2⟩, ⟨hqnd, hqres⟩, hsort⟩ := h
  unfold addToQueue
  dsimp only
  set S : ClientSession :=
    { id := st.nextId, clientId := cid, serverId := none, createdAt := t,
      lastActivity := t, status := .queued, priority := p } with hS
  have hfresh : ∀ c ∈ st.clientSessions, c.id ≠ S.id :=
    fun c hc => Nat.ne_of_lt (hc1 c hc)
  have hset : mapSet ClientSession.id S st.clientSessions =
      st.clientSessions ++ [S] := mapSet_of_fresh _ _ _ hfresh
  rw [hset]
  have hprS : prioOf (st.clientSessions ++ [S]) S.id = p := by
    unfold prioOf
    rw [find?_fresh_append hfresh]
    rfl
  have hcong : st.queueOrder.findIdx? (fun sessionId =>
      match (st.clientSessions ++ [S]).find? (fun c => c.id == sessionId) with
      | some otherSession => decide (otherSession.priority < p)
      | none => false) =
      st.queueOrder.findIdx? (fun x =>
        decide (prioOf (st.clientSessions ++ [S]) x <
          prioOf (st.clientSessions ++ [S]) S.id)) := by
    apply findIdx?_congr
    intro x hx
    obtain ⟨c, hcf, _⟩ := hqres x hx
    have hcf' := @find?_append_of_some _ _ _ [S] _ hcf
    rw [hcf', hprS]
    unfold prioOf
    rw [hcf']
    rfl
  rw [hcong]
  exact MMInv_enqueue_aux st S rfl rfl
    ⟨⟨hs1, hs2, hc1, hc2⟩, ⟨hqnd, hqres⟩, hsort⟩

theorem getAvailableServer_sessions (t : Nat) (st : MMState) :
    (getAvailableServer t st).1.clientSessions = st.clientSessions := by
  unfold getAvailableServer
  cases st.cirrusServers.find? (fun s => isServerAvailable t s) <;> rfl

theorem getAvailableServer_nextId (t : Nat) (st : MMState) :
    (getAvailableServer t st).1.nextId = st.nextId := by
  unfold getAvailableServer
  cases st.cirrusServers.find? (fun s => isServerAvailable t s) <;> rfl

theorem MMInv_pop {s : MMState} {sid : Nat} {rest : List Nat}
    (h : MMInv s) (hq : s.queueOrder = sid :: rest) :
    MMInv { s with queueOrder := rest } := by
  obtain ⟨hw, ⟨hnd, hres⟩, hsort⟩ := h
  unfold QueueSorted at hsort
  rw [hq] at hnd hres hsort
  refine ⟨hw, ⟨(List.nodup_cons.mp hnd).2,
    fun sid' hm => hres sid' (by simp [hm])⟩, ?_⟩
  unfold QueueSorted
  exact (List.pairwise_cons.mp hsort).2

theorem MMInv_processNextInQueue {st : MMState} (t : Nat)
    (h : MMInv st) : MMInv (processNextInQueue t st).1 := by
  unfold processNextInQueue
  rcases hq : st.queueOrder with _ | ⟨sid, rest⟩
  · exact h
  · rcases hg : getAvailableServer t st with ⟨st1, srvOpt⟩
    have hfst : (getAvailableServer t st).1 = st1 := by rw [hg]
    have hInv1 : MMInv st1 := hfst ▸ MMInv_getAvailableServer t h
    have hsess : st1.clientSessions = st.clientSessions := by
      rw [← hfst, getAvailableServer_sessions]
    have hqueue1 : st1.queueOrder = sid :: rest := by
      rw [← hfst, getAvailableServer_queueOrder, hq]
    have hsidrest : sid ∉ rest := by
      have := hInv1.2.1.1
      rw [hqueue1, List.nodup_cons] at this
      exact this.1
    rcases srvOpt with _ | server
    · dsimp only
      exact hInv1
    · dsimp only
      rcases hfind : st1.clientSessions.find? (fun c => c.id == sid)
        with _ | session
      · rw [hfind]
        exact MMInv_pop hInv1 hqueue1
      · rw [hfind]
        dsimp only
        have hInv2 : MMInv ({ st1 with queueOrder := rest } : MMState) :=
          MMInv_pop hInv1 hqueue1
        obtain ⟨⟨ws1, ws2, wc1, wc2⟩, ⟨qnd2, qres2⟩, qsort2⟩ := hInv2
        have hsid : session.id = sid := find?_key_eq ClientSession.id hfind
        set S' : ClientSession := { session with serverId := some server.id, status := SessionStatus.connected, lastActivity := t } with hS'
        have hkeep : ∀ x : ClientSession, x.id = sid → S'.id = x.id := by
          intro x hx
          simp [hS', hsid, hx]
        have hmap := map_key_updateFirst ClientSession.id sid
          (fun _ => S') st1.clientSessions (fun x hx => hkeep x hx)
        refine ⟨⟨ws1, ws2, ?_, ?_⟩, ⟨qnd2, ?_⟩, ?_⟩
        · intro c hc
          have hmem : c.id ∈ (updateFirst (fun c => c.id == sid)
              (fun _ => S') st1.clientSessions).map ClientSession.id :=
            List.mem_map_of_mem _ hc
          rw [hmap] at hmem
          rcases List.mem_map.mp hmem with ⟨x, hx, hxid⟩
          exact hxid ▸ wc1 x hx
        · rw [hmap]; exact wc2
        · intro sid' hm
          have hne : sid' ≠ sid := fun he => hsidrest (he ▸ hm)
          obtain ⟨c, hcf, hcq⟩ := qres2 sid' hm
          refine ⟨c, ?_, hcq⟩
          rw [find?_updateFirst_ne ClientSession.id sid sid' _ _
            (fun x hx => hx ▸ hkeep x hx) hne]
          exact hcf
        · refine qsort2.imp_of_mem ?_
          intro a b ha hb hr
          have hna : a ≠ sid := fun he => hsidrest (he ▸ ha)
          have hnb : b ≠ sid := fun he => hsidrest (he ▸ hb)
          unfold QRel at hr ⊢
          rw [prioOf_updateFirst_ne _ sid a _
              (fun x hx => hx ▸ hkeep x hx) hna,
            prioOf_updateFirst_ne _ sid b _
              (fun x hx => hx ▸ hkeep x hx) hnb]
          exact hr

theorem MMInv_processQueue (t : Nat) :
    ∀ st : MMState, MMInv st → MMInv (processQueue t st).1 := by
  refine processQueue.induct t
    (fun st => MMInv st → MMInv (processQueue t st).1) ?_ ?_
  · intro x st' evs heq ih hx
    rw [processQueue.eq_def]
    split
    · rename_i st2 evs2 heq2
      rw [heq] at heq2
      simp only [Prod.mk.injEq] at heq2
      have hstep := MMInv_processNextInQueue t hx
      rw [heq] at hstep
      dsimp only
      rw [← heq2.1]
      exact ih hstep
    · rename_i st2 evs2 heq2
      rw [heq] at heq2
      simp at heq2
  · intro x st' evs heq hx
    rw [processQueue.eq_def]
    split
    · rename_i st2 evs2 heq2
      rw [heq] at heq2
      simp at heq2
    · rename_i st2 evs2 heq2
      rw [heq] at heq2
      simp only [Prod.mk.injEq] at heq2
      have hstep := MMInv_processNextInQueue t hx
      rw [heq] at hstep
      rw [← heq2.1]
      exact hstep

theorem MMInv_cleanupExpiredSessions {st : MMState} (t m : Nat)
    (h : MMInv st) : MMInv (cleanupExpiredSessions t m st).1 := by
  unfold cleanupExpiredSessions
  suffices H : ∀ (l : List ClientSession) (acc : MMState × List MMEvent),
      MMInv acc.1 →
      MMInv ((l.foldl (fun acc session =>
        if isExpired t session.lastActivity m then
          let r := removeSession session.id acc.1
          (r.1, acc.2 ++ r.2)
        else acc) acc).1) by
    exact H st.clientSessions (st, []) h
  intro l
  induction l with
  | nil => exact fun acc hacc => hacc
  | cons x xs ih =>
    intro acc hacc
    simp only [List.foldl_cons]
    apply ih
    by_cases hx : isExpired t x.lastActivity m
    · simp only [hx, if_true]
      exact MMInv_removeSession x.id hacc
    · simp only [hx, if_false]
      exact hacc

theorem MMInv_cleanupStaleServers {st : MMState} (t : Nat)
    (h : MMInv st) : MMInv (cleanupStaleServers t st).1 := by
  unfold cleanupStaleServers
  suffices H : ∀ (l : List CirrusServer) (acc : MMState × List MMEvent),
      MMInv acc.1 →
      MMInv ((l.foldl (fun acc server =>
        if isExpired t server.lastPingReceived 120000 then
          let r := unregisterServer server.id acc.1
          (r.1, acc.2 ++ r.2)
        else acc) acc).1) by
    exact H st.cirrusServers (st, []) h
  intro l
  induction l with
  | nil => exact fun acc hacc => hacc
  | cons x xs ih =>
    intro acc hacc
    simp only [List.foldl_cons]
    apply ih
    by_cases hx : isExpired t x.lastPingReceived 120000
    · simp only [hx, if_true]
      exact MMInv_unregisterServer x.id hacc
    · simp only [hx, if_false]
      exact hacc

theorem MMInv_step {st : MMState} (op : MMOp) (h : MMInv st) :
    MMInv (step st op) := by
  cases op with
  | register t msg => exact MMInv_registerServer t msg h
  | update t id mt => exact MMInv_updateServerStatus t id mt h
  | unregister id => exact MMInv_unregisterServer id h
  | acquire t => exact MMInv_getAvailableServer t h
  | enqueue t cid p => exact MMInv_addToQueue t cid p h
  | processNext t => exact MMInv_processNextInQueue t h
  | drain t => exact MMInv_processQueue t st h
  | remove sid => exact MMInv_removeSession sid h
  | sweepSessions t m => exact MMInv_cleanupExpiredSessions t m h
  | sweepServers t => exact MMInv_cleanupStaleServers t h

theorem MMInv_runOps (ops : List MMOp) :
    ∀ st : MMState, MMInv st → MMInv (runOps ops st) := by
  induction ops with
  | nil => exact fun st h => h
  | cons op ops ih =>
    intro st h
    exact ih (step st op) (MMInv_step op h)

theorem MMInv_initState : MMInv initState := by
  refine ⟨⟨?_, ?_, ?_, ?_⟩, ⟨?_, ?_⟩, ?_⟩ <;>
    simp [initState, QueueSorted]

theorem Reachable.mminv {st : MMState} (h : Reachable st) : MMInv st := by
  obtain ⟨ops, rfl⟩ := h
  exact MMInv_runOps ops initState MMInv_initState

theorem mem_updateFirst {p : α → Bool} {f : α → α} {l : List α} {y : α}
    (hy : y ∈ updateFirst p f l) : y ∈ l ∨ ∃ x ∈ l, p x = true ∧ y = f x := by
  induction l with
  | nil => simp [updateFirst] at hy
  | cons x xs ih =>
    rcases hx : p x with _ | _
    · rw [updateFirst, hx] at hy
      simp only [Bool.false_eq_true, if_false, List.mem_cons] at hy
      rcases hy with rfl | hy
      · exact Or.inl (by simp)
      · rcases ih hy with h | ⟨z, hz, hpz, hyz⟩
        · exact Or.inl (by simp [h])
        · exact Or.inr ⟨z, by simp [hz], hpz, hyz⟩
    · rw [updateFirst, hx] at hy
      simp only [if_true, List.mem_cons] at hy
      rcases hy with rfl | hy
      · exact Or.inr ⟨x, by simp, hx, rfl⟩
      · exact Or.inl (by simp [hy])

theorem find?_key_of_mem_nodup (key : α → Nat) {l : List α} {x : α}
    (hnd : (l.map key).Nodup) (hx : x ∈ l) :
    l.find? (fun y => key y == key x) = some x := by
  induction l with
  | nil => simp at hx
  | cons y ys ih =>
    rcases List.mem_cons.mp hx with rfl | hx'
    · simp [List.find?_cons]
    · have hne : key y ≠ key x := by
        intro he
        have : key x ∈ ys.map key := List.mem_map_of_mem _ hx'
        rw [List.map_cons, List.nodup_cons] at hnd
        exact hnd.1 (he ▸ this)
      rw [List.find?_cons]
      have hb : (key y == key x) = false := by simp [hne]
      rw [hb]
      simp only [Bool.false_eq_true, if_false]
      exact ih (by rw [List.map_cons, List.nodup_cons] at hnd; exact hnd.2) hx'

theorem removeSession_servers (sid : Nat) (st : MMState) :
    (removeSession sid st).1.cirrusServers = st.cirrusServers := by
  unfold removeSession
  cases st.clientSessions.find? (fun c => c.id == sid) <;> rfl

theorem addToQueue_servers (t : Nat) (cid : Option String) (p : Int)
    (st : MMState) : (addToQueue t cid p st).1.cirrusServers =
      st.cirrusServers := rfl

theorem processNextInQueue_servers (t : Nat) (st : MMState) :
    (processNextInQueue t st).1.cirrusServers = st.cirrusServers ∨
    (processNextInQueue t st).1.cirrusServers =
      (getAvailableServer t st).1.cirrusServers := by
  unfold processNextInQueue
  rcases hq : st.queueOrder with _ | ⟨sid, rest⟩
  · exact Or.inl rfl
  · rcases hg : getAvailableServer t st with ⟨st1, srvOpt⟩
    rcases srvOpt with _ | server
    · exact Or.inr rfl
    · dsimp only
      rcases hfind : st1.clientSessions.find? (fun c => c.id == sid)
        with _ | session
      · rw [hfind]; exact Or.inr rfl
      · rw [hfind]; exact Or.inr rfl

/-- `connectedClients` is non-negative on every server. -/
def CountsOK (st : MMState) : Prop :=
  ∀ s ∈ st.cirrusServers, 0 ≤ s.numConnectedClients

theorem CountsOK_registerServer {st : MMState} (t : Nat) (msg : ConnectMsg)
    (h : CountsOK st) : CountsOK (registerServer t msg st).1 := by
  unfold registerServer
  dsimp only
  intro s hs
  rcases List.mem_append.mp hs with hs | hs
  · have hs' : s ∈ st.cirrusServers := by
      rcases hreg : findServerByAddress msg.address msg.port st with _ | ex <;>
        rw [hreg] at hs
      · exact hs
      · exact (List.eraseP_sublist _).mem hs
    exact h s hs'
  · simp only [List.mem_singleton] at hs
    subst hs
    dsimp only
    split <;> simp

theorem CountsOK_updateServerStatus {st : MMState} (t serverId : Nat)
    (mt : MsgType) (h : CountsOK st) :
    CountsOK (updateServerStatus t serverId mt st).1 := by
  unfold updateServerStatus
  rcases hf : st.cirrusServers.find? (fun s => s.id == serverId) with _ | server
  · rw [hf]; exact h
  · rw [hf]
    dsimp only
    intro s hs
    have hsrv : 0 ≤ server.numConnectedClients :=
      h server (List.mem_of_find?_eq_some hf)
    rcases mem_updateFirst hs with hs | ⟨x, _, _, rfl⟩
    · exact h s hs
    · cases mt <;> dsimp only
      · exact hsrv
      · exact hsrv
      · exact hsrv
      · exact hsrv
      · omega
      · split <;> dsimp only <;> exact le_max_left 0 _
      · exact hsrv
      · exact hsrv

theorem CountsOK_unregisterServer {st : MMState} (serverId : Nat)
    (h : CountsOK st) : CountsOK (unregisterServer serverId st).1 := by
  unfold unregisterServer
  rcases hf : st.cirrusServers.find? (fun s => s.id == serverId) with _ | server
  · rw [hf]; exact h
  · rw [hf]
    intro s hs
    exact h s ((List.eraseP_sublist _).mem hs)

theorem CountsOK_getAvailableServer {st : MMState} (t : Nat)
    (h : CountsOK st) : CountsOK (getAvailableServer t st).1 := by
  unfold getAvailableServer
  rcases hf : st.cirrusServers.find? (fun s => isServerAvailable t s)
    with _ | srv
  · exact h
  · intro s hs
    rcases mem_updateFirst hs with hs | ⟨x, hx, _, rfl⟩
    · exact h s hs
    · exact h x hx

theorem CountsOK_processNextInQueue {st : MMState} (t : Nat)
    (h : CountsOK st) : CountsOK (processNextInQueue t st).1 := by
  intro s hs
  rcases processNextInQueue_servers t st with he | he <;> rw [he] at hs
  · exact h s hs
  · exact CountsOK_getAvailableServer t h s hs

theorem CountsOK_processQueue (t : Nat) :
    ∀ st : MMState, CountsOK st → CountsOK (processQueue t st).1 := by
  refine processQueue.induct t
    (fun st => CountsOK st → CountsOK (processQueue t st).1) ?_ ?_
  · intro x st' evs heq ih hx
    rw [processQueue.eq_def]
    split
    · rename_i st2 evs2 heq2
      rw [heq] at heq2
      simp only [Prod.mk.injEq] at heq2
      have hstep := CountsOK_processNextInQueue t hx
      rw [heq] at hstep
      dsimp only
      rw [← heq2.1]
      exact ih hstep
    · rename_i st2 evs2 heq2
      rw [heq] at heq2
      simp at heq2
  · intro x st' evs heq hx
    rw [processQueue.eq_def]
    split
    · rename_i st2 evs2 heq2
      rw [heq] at heq2
      simp at heq2
    · rename_i st2 evs2 heq2
      rw [heq] at heq2
      simp only [Prod.mk.injEq] at heq2
      have hstep := CountsOK_processNextInQueue t hx
      rw [heq] at hstep
      rw [← heq2.1]
      exact hstep

theorem CountsOK_cleanupExpiredSessions {st : MMState} (t m : Nat)
    (h : CountsOK st) : CountsOK (cleanupExpiredSessions t m st).1 := by
  unfold cleanupExpiredSessions
  suffices H : ∀ (l : List ClientSession) (acc : MMState × List MMEvent),
      CountsOK acc.1 →
      CountsOK ((l.foldl (fun acc session =>
        if isExpired t session.lastActivity m then
          let r := removeSession session.id acc.1
          (r.1, acc.2 ++ r.2)
        else acc) acc).1) by
    exact H st.clientSessions (st, []) h
  intro l
  induction l with
  | nil => exact fun acc hacc => hacc
  | cons x xs ih =>
    intro acc hacc
    simp only [List.foldl_cons]
    apply ih
    by_cases hx : isExpired t x.lastActivity m
    · simp only [hx, if_true]
      intro s hs
      rw [removeSession_servers] at hs
      exact hacc s hs
    · simp only [hx, if_false]
      exact hacc

theorem CountsOK_cleanupStaleServers {st : MMState} (t : Nat)
    (h : CountsOK st) : CountsOK (cleanupStaleServers t st).1 := by
  unfold cleanupStaleServers
  suffices H : ∀ (l : List CirrusServer) (acc : MMState × List MMEvent),
      CountsOK acc.1 →
      CountsOK ((l.foldl (fun acc server =>
        if isExpired t server.lastPingReceived 120000 then
          let r := unregisterServer server.id acc.1
          (r.1, acc.2 ++ r.2)
        else acc) acc).1) by
    exact H st.cirrusServers (st, []) h
  intro l
  induction l with
  | nil => exact fun acc hacc => hacc
  | cons x xs ih =>
    intro acc hacc
    simp only [List.foldl_cons]
    apply ih
    by_cases hx : isExpired t x.lastPingReceived 120000
    · simp only [hx, if_true]
      exact CountsOK_unregisterServer x.id hacc
    · simp only [hx, if_false]
      exact hacc

theorem CountsOK_step {st : MMState} (op : MMOp) (h : CountsOK st) :
    CountsOK (step st op) := by
  cases op with
  | register t msg => exact CountsOK_registerServer t msg h
  | update t id mt => exact CountsOK_updateServerStatus t id mt h
  | unregister id => exact CountsOK_unregisterServer id h
  | acquire t => exact CountsOK_getAvailableServer t h
  | enqueue t cid p =>
    intro s hs
    simp only [step] at hs
    rw [addToQueue_servers] at hs
    exact h s hs
  | processNext t => exact CountsOK_processNextInQueue t h
  | drain t => exact CountsOK_processQueue t st h
  | remove sid =>
    intro s hs
    simp only [step] at hs
    rw [removeSession_servers] at hs
    exact h s hs
  | sweepSessions t m => exact CountsOK_cleanupExpiredSessions t m h
  | sweepServers t => exact CountsOK_cleanupStaleServers t h

theorem Reachable.countsOK {st : MMState} (h : Reachable st) : CountsOK st := by
  obtain ⟨ops, rfl⟩ := h
  have H : ∀ s : MMState, CountsOK s → CountsOK (runOps ops s) := by
    induction ops with
    | nil => exact fun s h => h
    | cons op ops ih => exact fun s h => ih (step s op) (CountsOK_step op h)
  exact H initState (by intro s hs; simp [initState] at hs)

/-! ## Claim theorems -/

/-- The spec's derived `cooldownUntil`: the time until which a node is in
assignment cooldown, computed from the code's `lastRedirect` field (a falsy
`lastRedirect` means no cooldown). -/
def cooldownUntil (s : CirrusServer) : Nat :=
  match s.lastRedirect with
  | some r => if r = 0 then 0 else r + 10000
  | none => 0

theorem isServerAvailable_iff (t : Nat) (s : CirrusServer) :
    isServerAvailable t s = true ↔
      (s.ready = true ∧ s.numConnectedClients ≤ 0 ∧ cooldownUntil s ≤ t) := by
  unfold isServerAvailable cooldownUntil
  rcases hlr : s.lastRedirect with _ | r
  · by_cases hr : s.ready <;> by_cases hc : s.numConnectedClients ≤ 0 <;>
      simp [hr, hc] <;> omega
  · by_cases hr : s.ready <;> by_cases hc : s.numConnectedClients ≤ 0 <;>
      by_cases hr0 : r = 0 <;> by_cases hcd : t - r < 10000 <;>
      simp [hr, hc, hr0, hcd] <;> omega

theorem getAvailableServer_some_elim {t : Nat} {st st' : MMState}
    {N : CirrusServer} (h : getAvailableServer t st = (st', some N)) :
    ∃ s₀, st.cirrusServers.find? (fun s => isServerAvailable t s) = some s₀ ∧
      N = { s₀ with lastRedirect := some t } := by
  unfold getAvailableServer at h
  rcases hf : st.cirrusServers.find? (fun s => isServerAvailable t s)
    with _ | s₀ <;> rw [hf] at h
  · simp at h
  · refine ⟨s₀, rfl, ?_⟩
    simp only [Prod.mk.injEq] at h
    exact (Option.some.injEq .. ▸ h.2).symm

/-- C4: whenever `getAvailableServer` returns a node `N`, the registry entry
it was selected from is `ready`, has no connected clients, and its cooldown
has elapsed (`now ≥ cooldownUntil`); the returned object is that entry with
`lastRedirect` freshly set.  (Non-negativity of the client counts — true in
every reachable state — is the only assumption.) -/
theorem c4_acquire_only_eligible {st st' : MMState} {t : Nat}
    {N : CirrusServer}
    (hpos : ∀ s ∈ st.cirrusServers, 0 ≤ s.numConnectedClients)
    (h : getAvailableServer t st = (st', some N)) :
    N.ready = true ∧ N.numConnectedClients = 0 ∧
    ∃ s₀ ∈ st.cirrusServers, s₀.id = N.id ∧ cooldownUntil s₀ ≤ t ∧
      N = { s₀ with lastRedirect := some t } := by
  obtain ⟨s₀, hf, rfl⟩ := getAvailableServer_some_elim h
  have hav := List.find?_some hf
  rw [isServerAvailable_iff] at hav
  have hmem := List.mem_of_find?_eq_some hf
  have hc0 : s₀.numConnectedClients = 0 := le_antisymm hav.2.1 (hpos s₀ hmem)
  exact ⟨hav.1, hc0, s₀, hmem, rfl, hav.2.2, rfl⟩

/-- A ready node with no player, registered at time 5. -/
def exMsg : ConnectMsg :=
  { address := "10.0.0.1", port := 8080, ready := some true,
    playerConnected := some false }

def exSt : MMState := (registerServer 5 exMsg {}).1

def exN : CirrusServer :=
  { id := 0, address := "10.0.0.1", port := 8080, https := false,
    numConnectedClients := 0, lastPingReceived := 5, ready := true,
    lastRedirect := some 6, metadata := [] }

def exStAfter : MMState := (getAvailableServer 6 exSt).1

/-- Witness for C4 at a concrete input. -/
theorem c4_acquire_only_eligible_witness :
    (∀ s ∈ exSt.cirrusServers, 0 ≤ s.numConnectedClients) ∧
    (exN.ready = true ∧ exN.numConnectedClients = 0 ∧
      ∃ s₀ ∈ exSt.cirrusServers, s₀.id = exN.id ∧ cooldownUntil s₀ ≤ 6 ∧
        exN = { s₀ with lastRedirect := some 6 }) :=
  ⟨by decide,
    @c4_acquire_only_eligible exSt exStAfter 6 exN (by decide) (by decide)⟩

theorem eq_of_mem_key_nodup (key : α → Nat) {l : List α} {x y : α}
    (hnd : (l.map key).Nodup) (hx : x ∈ l) (hy : y ∈ l)
    (hk : key x = key y) : x = y := by
  induction l with
  | nil => simp at hx
  | cons z zs ih =>
    rw [List.map_cons, List.nodup_cons] at hnd
    rcases List.mem_cons.mp hx with rfl | hx' <;>
      rcases List.mem_cons.mp hy with rfl | hy'
    · rfl
    · exact absurd (hk ▸ List.mem_map_of_mem key hy') hnd.1
    · exact absurd (hk ▸ List.mem_map_of_mem key hx') hnd.1
    · exact ih hnd.2 hx' hy'

/-- C7: in every reachable state every server's `numConnectedClients` is
non-negative, and a `clientDisconnected` message arriving when the count is
already `0` leaves every entry with that server's id at `0` (the
`Math.max(0, n - 1)` clamp). -/
theorem c7_connectedClients_nonneg {st : MMState} (h : Reachable st) :
    (∀ srv ∈ st.cirrusServers, 0 ≤ srv.numConnectedClients) ∧
    (∀ t srv, srv ∈ st.cirrusServers → srv.numConnectedClients = 0 →
      ∀ srv' ∈ (updateServerStatus t srv.id
          MsgType.clientDisconnected st).1.cirrusServers,
        srv'.id = srv.id → srv'.numConnectedClients = 0) := by
  have hc := h.countsOK
  have hI := h.mminv
  refine ⟨hc, ?_⟩
  intro t srv hmem h0 srv' hmem' hid'
  have hnd : (st.cirrusServers.map CirrusServer.id).Nodup := hI.1.2.1
  have hfind : st.cirrusServers.find? (fun y => y.id == srv.id) = some srv :=
    find?_key_of_mem_nodup CirrusServer.id hnd hmem
  unfold updateServerStatus at hmem'
  rw [hfind] at hmem'
  dsimp only at hmem'
  rcases mem_updateFirst hmem' with hmem'' | ⟨x, _, _, rfl⟩
  · have : srv' = srv :=
      eq_of_mem_key_nodup CirrusServer.id hnd hmem'' hmem hid'
    rw [this, h0]
  · simp [h0]

theorem c7_connectedClients_nonneg_witness :
    (∀ srv ∈ exSt.cirrusServers, 0 ≤ srv.numConnectedClients) ∧
    (∀ t srv, srv ∈ exSt.cirrusServers → srv.numConnectedClients = 0 →
      ∀ srv' ∈ (updateServerStatus t srv.id
          MsgType.clientDisconnected exSt).1.cirrusServers,
        srv'.id = srv.id → srv'.numConnectedClients = 0) :=
  c7_connectedClients_nonneg ⟨[MMOp.register 5 exMsg], by decide⟩

theorem stale_fold_aux (t : Nat) :
    ∀ (rem : List CirrusServer) (acc : MMState × List MMEvent)
      (pre : List CirrusServer),
      acc.1.cirrusServers = pre ++ rem →
      (∀ s ∈ pre, ∀ r ∈ rem, s.id ≠ r.id) →
      (rem.map CirrusServer.id).Nodup →
      ((rem.foldl (fun acc server =>
          if isExpired t server.lastPingReceived 120000 then
            let r := unregisterServer server.id acc.1
            (r.1, acc.2 ++ r.2)
          else acc) acc).1).cirrusServers =
        pre ++ rem.filter (fun s => !(isExpired t s.lastPingReceived 120000)) := by
  intro rem
  induction rem with
  | nil =>
    intro acc pre hacc _ _
    simpa using hacc
  | cons r rs ih =>
    intro acc pre hacc hdisj hnd
    rw [List.map_cons, List.nodup_cons] at hnd
    simp only [List.foldl_cons]
    by_cases hx : isExpired t r.lastPingReceived 120000
    · simp only [hx, if_true]
      have hpre_no : ∀ s ∈ pre, ¬(s.id == r.id) = true := by
        intro s hs
        simp [hdisj s hs r (by simp)]
      have hfind : acc.1.cirrusServers.find? (fun s => s.id == r.id) =
          some r := by
        rw [hacc, find?_append_of_none (List.find?_eq_none.mpr hpre_no)]
        simp [List.find?_cons]
      have hserv : (unregisterServer r.id acc.1).1.cirrusServers =
          pre ++ rs := by
        unfold unregisterServer
        rw [hfind]
        dsimp only
        rw [hacc, List.eraseP_append_right _ hpre_no,
          List.eraseP_cons_of_pos (by simp)]
      have hdisj' : ∀ s ∈ pre, ∀ r' ∈ rs, s.id ≠ r'.id := by
        intro s hs r' hr'
        exact hdisj s hs r' (by simp [hr'])
      have hfil : List.filter
          (fun s => !isExpired t s.lastPingReceived 120000) (r :: rs) =
          List.filter (fun s => !isExpired t s.lastPingReceived 120000) rs := by
        simp [List.filter_cons, hx]
      rw [hfil]
      exact ih ((unregisterServer r.id acc.1).1,
        acc.2 ++ (unregisterServer r.id acc.1).2) pre hserv hdisj' hnd.2
    · simp only [hx, if_false]
      have hacc' : acc.1.cirrusServers = (pre ++ [r]) ++ rs := by
        rw [hacc]; simp
      have hdisj' : ∀ s ∈ pre ++ [r], ∀ r' ∈ rs, s.id ≠ r'.id := by
        intro s hs r' hr'
        rcases List.mem_append.mp hs with hs | hs
        · exact hdisj s hs r' (by simp [hr'])
        · simp only [List.mem_singleton] at hs
          subst hs
          intro he
          exact hnd.1 (he ▸ List.mem_map_of_mem CirrusServer.id hr')
      have hfil : pre ++ List.filter
          (fun s => !isExpired t s.lastPingReceived 120000) (r :: rs) =
          (pre ++ [r]) ++ List.filter
            (fun s => !isExpired t s.lastPingReceived 120000) rs := by
        simp [List.filter_cons, hx]
      rw [hfil]
      exact ih acc (pre ++ [r]) hacc' hdisj' hnd.2

/-- In a registry with distinct ids, the stale-server sweep keeps exactly
the servers with `now − lastPingReceived ≤ 120000` (removal requires a
strict excess over two minutes). -/
theorem cleanupStaleServers_filter {st : MMState} (t : Nat)
    (hnd : (st.cirrusServers.map CirrusServer.id).Nodup) :
    (cleanupStaleServers t st).1.cirrusServers =
      st.cirrusServers.filter
        (fun s => !(isExpired t s.lastPingReceived 120000)) := by
  unfold cleanupStaleServers
  have := stale_fold_aux t st.cirrusServers (st, []) [] rfl (by simp) hnd
  simpa using this

/-- A node last pinged at `t = 100`. -/
def exStaleServer : CirrusServer :=
  { id := 0, address := "10.0.0.2", port := 9090, https := false,
    numConnectedClients := 0, lastPingReceived := 100, ready := true,
    lastRedirect := none, metadata := [] }

/-- A registry holding only `exStaleServer`. -/
def exStale : MMState :=
  { cirrusServers := [exStaleServer], clientSessions := [],
    queueOrder := [], nextId := 1 }

/-- C5 counterexample: a sweep tick at exactly `lastPingAt + 120 000`
(here `t = 120100`, `lastPingAt = 100`) removes nothing — the code removes
only on a strict excess (`>`), so the claim's "at exactly 120 000 ms the
node is removed" is false. -/
theorem c5_counterexample :
    (cleanupStaleServers 120100 exStale).1.cirrusServers =
      exStale.cirrusServers ∧
    120100 - (100 : Nat) = 120000 := by decide

/-- C5 amended: the sweep keeps exactly the servers with
`now − lastPingAt ≤ 120 000`; in particular a node at exactly 120 000 ms or
at 119 000 ms since its last ping is kept, and one strictly beyond
120 000 ms is removed. -/
theorem c5_stale_sweep_boundary {st : MMState} (t : Nat)
    (hnd : (st.cirrusServers.map CirrusServer.id).Nodup) :
    (cleanupStaleServers t st).1.cirrusServers =
      st.cirrusServers.filter
        (fun s => !(isExpired t s.lastPingReceived 120000)) ∧
    (∀ s ∈ st.cirrusServers, t - s.lastPingReceived = 120000 →
      s ∈ (cleanupStaleServers t st).1.cirrusServers) ∧
    (∀ s ∈ st.cirrusServers, t - s.lastPingReceived = 119000 →
      s ∈ (cleanupStaleServers t st).1.cirrusServers) ∧
    (∀ s ∈ st.cirrusServers, 120000 < t - s.lastPingReceived →
      s ∉ (cleanupStaleServers t st).1.cirrusServers) := by
  have hchar := cleanupStaleServers_filter t hnd
  refine ⟨hchar, ?_, ?_, ?_⟩
  · intro s hs he
    rw [hchar, List.mem_filter]
    exact ⟨hs, by simp [isExpired, he]⟩
  · intro s hs he
    rw [hchar, List.mem_filter]
    exact ⟨hs, by simp [isExpired, he]⟩
  · intro s hs he hmem
    rw [hchar, List.mem_filter] at hmem
    have := hmem.2
    simp [isExpired, he] at this

theorem c5_stale_sweep_boundary_witness :
    ((exStale.cirrusServers.map CirrusServer.id).Nodup) ∧
    ((cleanupStaleServers 120100 exStale).1.cirrusServers =
      exStale.cirrusServers.filter
        (fun s => !(isExpired 120100 s.lastPingReceived 120000)) ∧
    (∀ s ∈ exStale.cirrusServers, 120100 - s.lastPingReceived = 120000 →
      s ∈ (cleanupStaleServers 120100 exStale).1.cirrusServers) ∧
    (∀ s ∈ exStale.cirrusServers, 120100 - s.lastPingReceived = 119000 →
      s ∈ (cleanupStaleServers 120100 exStale).1.cirrusServers) ∧
    (∀ s ∈ exStale.cirrusServers, 120000 < 120100 - s.lastPingReceived →
      s ∉ (cleanupStaleServers 120100 exStale).1.cirrusServers)) :=
  ⟨by decide, c5_stale_sweep_boundary 120100 (by decide)⟩

theorem ne_of_mem_eraseP_key (key : α → Nat) {l : List α} {x : α}
    (hnd : (l.map key).Nodup) (hx : x ∈ l) :
    ∀ y ∈ l.eraseP (fun s => key s == key x), y ≠ x := by
  induction l with
  | nil => simp at hx
  | cons z zs ih =>
    rw [List.map_cons, List.nodup_cons] at hnd
    intro y hy
    rcases hz : (key z == key x) with _ | _
    · rw [List.eraseP_cons, hz] at hy
      simp only [cond_false, List.mem_cons] at hy
      rcases hy with rfl | hy
      · intro he
        subst he
        simp at hz
      · have hxzs : x ∈ zs := by
          rcases List.mem_cons.mp hx with rfl | hx'
          · simp at hz
          · exact hx'
        exact ih hnd.2 hxzs y hy
    · rw [List.eraseP_cons, hz] at hy
      simp only [cond_true] at hy
      intro he
      subst he
      have hkzx : key z = key y := by simpa using hz
      exact hnd.1 (hkzx ▸ List.mem_map_of_mem key hy)

/-- Helper event classifier: is an event a `serverUnregistered`? -/
def isUnregisterEvent : MMEvent → Bool
  | .serverUnregistered _ => true
  | _ => false

/-- C3 counterexample: re-registering the `(address, port)` pair already in
the registry (`exSt` holds `("10.0.0.1", 8080)`) evicts the old entry but
emits no `serverUnregistered` event — the emitted event list holds only the
`serverRegistered` for the replacement. -/
theorem c3_counterexample :
    (∃ s ∈ exSt.cirrusServers,
      s.address = exMsg.address ∧ s.port = exMsg.port) ∧
    (registerServer 9 exMsg exSt).2.1.all
      (fun e => !(isUnregisterEvent e)) = true ∧
    (registerServer 9 exMsg exSt).2.1.length = 1 := by decide

/-- The server record `registerServer` constructs (id `i`, time `t`). -/
def newServer (t : Nat) (msg : ConnectMsg) (i : Nat) : CirrusServer :=
  { id := i
    address := msg.address
    port := msg.port
    https := msg.https.getD false
    numConnectedClients := if msg.playerConnected.getD false then 1 else 0
    lastPingReceived := t
    ready := msg.ready.getD false
    lastRedirect := none
    metadata := msg.metadata.getD [] }

theorem c3_aux {st : MMState} (t : Nat) (msg : ConnectMsg)
    {pre : List CirrusServer}
    (hpre_sub : ∀ y ∈ pre, y ∈ st.cirrusServers)
    (hpre_free : ∀ y ∈ pre, ¬(y.address = msg.address ∧ y.port = msg.port))
    (hw : ∀ s ∈ st.cirrusServers, s.id < st.nextId)
    (huniq : ∀ a ∈ st.cirrusServers, ∀ b ∈ st.cirrusServers,
      a.address = b.address → a.port = b.port → a = b) :
    (∀ s ∈ st.cirrusServers, s.address = msg.address → s.port = msg.port →
      s ∉ pre ++ [newServer t msg st.nextId]) ∧
    (∀ a ∈ pre ++ [newServer t msg st.nextId],
      ∀ b ∈ pre ++ [newServer t msg st.nextId],
        a.address = b.address → a.port = b.port → a = b) := by
  constructor
  · intro s hs ha hp hmem
    rcases List.mem_append.mp hmem with hmem | hmem
    · exact hpre_free s hmem ⟨ha, hp⟩
    · simp only [List.mem_singleton] at hmem
      have : s.id < st.nextId := hw s hs
      rw [hmem] at this
      exact Nat.lt_irrefl st.nextId this
  · intro a hma b hmb ha hp
    rcases List.mem_append.mp hma with hma | hma <;>
      rcases List.mem_append.mp hmb with hmb | hmb
    · exact huniq a (hpre_sub a hma) b (hpre_sub b hmb) ha hp
    · simp only [List.mem_singleton] at hmb
      subst hmb
      exact absurd ⟨ha, hp⟩ (hpre_free a hma)
    · simp only [List.mem_singleton] at hma
      subst hma
      exact absurd ⟨ha.symm, hp.symm⟩ (hpre_free b hmb)
    · simp only [List.mem_singleton] at hma hmb
      rw [hma, hmb]

/-- C3 amended: re-registering an `(address, port)` already present replaces
the prior entry **silently** (no `serverUnregistered` is emitted); the call
emits exactly one `serverRegistered` for the new record — which has a fresh
id, `numConnectedClients = 1` iff `playerConnected`, `lastPingReceived = now`
— the evicted entry is gone, and `(address, port)` is again unique. -/
theorem c3_register_replaces {st : MMState} (t : Nat) (msg : ConnectMsg)
    (hw : ∀ s ∈ st.cirrusServers, s.id < st.nextId)
    (hnd : (st.cirrusServers.map CirrusServer.id).Nodup)
    (huniq : ∀ a ∈ st.cirrusServers, ∀ b ∈ st.cirrusServers,
      a.address = b.address → a.port = b.port → a = b) :
    (registerServer t msg st).2.1 =
      [MMEvent.serverRegistered (newServer t msg st.nextId)] ∧
    (registerServer t msg st).2.2 = st.nextId ∧
    newServer t msg st.nextId ∈ (registerServer t msg st).1.cirrusServers ∧
    (∀ s ∈ st.cirrusServers, s.id ≠ st.nextId) ∧
    (∀ s ∈ st.cirrusServers, s.address = msg.address → s.port = msg.port →
      s ∉ (registerServer t msg st).1.cirrusServers) ∧
    (∀ a ∈ (registerServer t msg st).1.cirrusServers,
      ∀ b ∈ (registerServer t msg st).1.cirrusServers,
        a.address = b.address → a.port = b.port → a = b) := by
  unfold registerServer findServerByAddress
  dsimp only
  rcases hfind : st.cirrusServers.find?
      (fun s => s.address = msg.address && s.port == msg.port) with _ | ex <;>
    rw [hfind] <;> dsimp only
  · have hpre_free : ∀ y ∈ st.cirrusServers,
        ¬(y.address = msg.address ∧ y.port = msg.port) := by
      intro y hy hc
      have := List.find?_eq_none.mp hfind y hy
      simp [hc.1, hc.2] at this
    obtain ⟨hnot, hu⟩ :=
      c3_aux t msg (fun y hy => hy) hpre_free hw huniq
    exact ⟨rfl, rfl, by simp [newServer], fun s hs => Nat.ne_of_lt (hw s hs),
      hnot, hu⟩
  · have hex_mem : ex ∈ st.cirrusServers := List.mem_of_find?_eq_some hfind
    have hex_match : ex.address = msg.address ∧ ex.port = msg.port := by
      have := List.find?_some hfind
      simp at this
      exact this
    have hpre_sub : ∀ y ∈ st.cirrusServers.eraseP (fun s => s.id == ex.id),
        y ∈ st.cirrusServers := fun y hy => List.mem_of_mem_eraseP hy
    have hpre_free : ∀ y ∈ st.cirrusServers.eraseP (fun s => s.id == ex.id),
        ¬(y.address = msg.address ∧ y.port = msg.port) := by
      intro y hy hc
      have hyne : y ≠ ex := ne_of_mem_eraseP_key CirrusServer.id hnd hex_mem y hy
      have : y = ex := huniq y (hpre_sub y hy) ex hex_mem
        (hc.1.trans hex_match.1.symm) (hc.2.trans hex_match.2.symm)
      exact hyne this
    obtain ⟨hnot, hu⟩ := c3_aux t msg hpre_sub hpre_free hw huniq
    exact ⟨rfl, rfl, by simp [newServer], fun s hs => Nat.ne_of_lt (hw s hs),
      hnot, hu⟩

theorem c3_register_replaces_witness :
    ((∀ s ∈ exSt.cirrusServers, s.id < exSt.nextId) ∧
     (exSt.cirrusServers.map CirrusServer.id).Nodup ∧
     (∀ a ∈ exSt.cirrusServers, ∀ b ∈ exSt.cirrusServers,
       a.address = b.address → a.port = b.port → a = b)) ∧
    ((registerServer 9 exMsg exSt).2.1 =
      [MMEvent.serverRegistered (newServer 9 exMsg exSt.nextId)] ∧
    (registerServer 9 exMsg exSt).2.2 = exSt.nextId ∧
    newServer 9 exMsg exSt.nextId ∈
      (registerServer 9 exMsg exSt).1.cirrusServers ∧
    (∀ s ∈ exSt.cirrusServers, s.id ≠ exSt.nextId) ∧
    (∀ s ∈ exSt.cirrusServers, s.address = exMsg.address →
      s.port = exMsg.port →
      s ∉ (registerServer 9 exMsg exSt).1.cirrusServers) ∧
    (∀ a ∈ (registerServer 9 exMsg exSt).1.cirrusServers,
      ∀ b ∈ (registerServer 9 exMsg exSt).1.cirrusServers,
        a.address = b.address → a.port = b.port → a = b)) :=
  ⟨⟨by decide, by decide, by decide⟩,
    c3_register_replaces 9 exMsg (by decide) (by decide) (by decide)⟩

/-- C9: in every reachable state the queue holds each session id at most
once, every queued id resolves to a `queued` session in the map, and the
defensive "session missing after pop" branch of `processNextInQueue` is
unreachable: a `false` return means the queue was empty or no server was
available. -/
theorem c9_queue_wellformed {st : MMState} (h : Reachable st) :
    st.queueOrder.Nodup ∧
    (∀ sid ∈ st.queueOrder,
      ∃ c, st.clientSessions.find? (fun x => x.id == sid) = some c ∧
        c.status = SessionStatus.queued) ∧
    (∀ t st' evs, processNextInQueue t st = (st', evs, false) →
      st.queueOrder = [] ∨ (getAvailableServer t st).2 = none) := by
  obtain ⟨-, ⟨hqnd, hqres⟩, -⟩ := h.mminv
  refine ⟨hqnd, hqres, ?_⟩
  intro t st' evs hp
  rcases hq : st.queueOrder with _ | ⟨sid, rest⟩
  · exact Or.inl rfl
  · rcases hg : getAvailableServer t st with ⟨st1, srvOpt⟩
    rcases srvOpt with _ | server
    · exact Or.inr rfl
    · exfalso
      unfold processNextInQueue at hp
      rw [hq, hg] at hp
      dsimp only at hp
      have hsess : st1.clientSessions = st.clientSessions := by
        have hfst : (getAvailableServer t st).1 = st1 := by rw [hg]
        rw [← hfst, getAvailableServer_sessions]
      obtain ⟨c, hcf, -⟩ := hqres sid (by simp [hq])
      rw [hsess, hcf] at hp
      dsimp only at hp
      simp at hp

theorem c9_queue_wellformed_witness :
    (runOps [MMOp.register 5 exMsg, MMOp.enqueue 6 (some "c1") 0]
        initState).queueOrder.Nodup ∧
    (∀ sid ∈ (runOps [MMOp.register 5 exMsg, MMOp.enqueue 6 (some "c1") 0]
        initState).queueOrder,
      ∃ c, (runOps [MMOp.register 5 exMsg, MMOp.enqueue 6 (some "c1") 0]
          initState).clientSessions.find? (fun x => x.id == sid) = some c ∧
        c.status = SessionStatus.queued) ∧
    (∀ t st' evs, processNextInQueue t
        (runOps [MMOp.register 5 exMsg, MMOp.enqueue 6 (some "c1") 0]
          initState) = (st', evs, false) →
      (runOps [MMOp.register 5 exMsg, MMOp.enqueue 6 (some "c1") 0]
          initState).queueOrder = [] ∨
      (getAvailableServer t
        (runOps [MMOp.register 5 exMsg, MMOp.enqueue 6 (some "c1") 0]
          initState)).2 = none) :=
  c9_queue_wellformed ⟨[MMOp.register 5 exMsg, MMOp.enqueue 6 (some "c1") 0],
    rfl⟩


theorem pairwise_indexOf_rel {R : Nat → Nat → Prop} :
    ∀ {l : List Nat}, l.Pairwise R → ∀ {a b : Nat}, a ∈ l → b ∈ l →
      l.indexOf a < l.indexOf b → R a b := by
  intro l
  induction l with
  | nil => intro _ a b ha; simp at ha
  | cons x xs ih =>
    intro hp a b ha hb hidx
    rw [List.pairwise_cons] at hp
    by_cases hax : x = a
    · subst hax
      by_cases hbx : x = b
      · subst hbx
        simp [List.indexOf_cons] at hidx
      · have hbxs : b ∈ xs := by
          rcases List.mem_cons.mp hb with h | h
          · exact absurd h.symm hbx
          · exact h
        exact hp.1 b hbxs
    · have haxs : a ∈ xs := by
        rcases List.mem_cons.mp ha with h | h
        · exact absurd h.symm hax
        · exact h
      by_cases hbx : x = b
      · subst hbx
        have hbeqa : (x == a) = false := by simp [hax]
        simp [List.indexOf_cons, hbeqa] at hidx
      · have hbxs : b ∈ xs := by
          rcases List.mem_cons.mp hb with h | h
          · exact absurd h.symm hbx
          · exact h
        have hbeqa : (x == a) = false := by simp [hax]
        have hbeqb : (x == b) = false := by simp [hbx]
        apply ih hp.2 haxs hbxs
        simp only [List.indexOf_cons, hbeqa, hbeqb, cond_false] at hidx
        exact Nat.lt_of_succ_lt_succ hidx

theorem indexOf_inj_of_mem {l : List Nat} {a b : Nat} (ha : a ∈ l)
    (hb : b ∈ l) (he : l.indexOf a = l.indexOf b) : a = b := by
  have hia := List.indexOf_lt_length.mpr ha
  have hib := List.indexOf_lt_length.mpr hb
  have hfin : (⟨l.indexOf a, hia⟩ : Fin l.length) = ⟨l.indexOf b, hib⟩ :=
    Fin.ext he
  calc a = l.get ⟨l.indexOf a, hia⟩ := (List.indexOf_get hia).symm
    _ = l.get ⟨l.indexOf b, hib⟩ := by rw [hfin]
    _ = b := List.indexOf_get hib

/-- C6: in every reachable state, if sessions `sa` (id `a`) and `sb`
(id `b`) are both queued, `a` was enqueued before `b` (ids are assigned from
an increasing counter, so `a < b`), and `sa`'s priority is at least `sb`'s,
then `a` is positioned strictly before `b` in the queue — the queue is
sorted by descending priority with FIFO order among equal priorities, so `a`
is drained no later than `b`. -/
theorem c6_priority_fifo {st : MMState} (h : Reachable st) {a b : Nat}
    {sa sb : ClientSession}
    (hma : a ∈ st.queueOrder) (hmb : b ∈ st.queueOrder)
    (hfa : st.clientSessions.find? (fun c => c.id == a) = some sa)
    (hfb : st.clientSessions.find? (fun c => c.id == b) = some sb)
    (hab : a < b) (hprio : sb.priority ≤ sa.priority) :
    st.queueOrder.indexOf a < st.queueOrder.indexOf b := by
  obtain ⟨-, -, hsort⟩ := h.mminv
  unfold QueueSorted at hsort
  have hpa : prioOf st.clientSessions a = sa.priority := by
    unfold prioOf; rw [hfa]; rfl
  have hpb : prioOf st.clientSessions b = sb.priority := by
    unfold prioOf; rw [hfb]; rfl
  rcases Nat.lt_trichotomy (st.queueOrder.indexOf a)
      (st.queueOrder.indexOf b) with hlt | heq | hgt
  · exact hlt
  · exact absurd (indexOf_inj_of_mem hma hmb heq) (Nat.ne_of_lt hab)
  · exfalso
    have hrel : QRel (prioOf st.clientSessions) b a :=
      pairwise_indexOf_rel hsort hmb hma hgt
    rcases hrel with hlt' | ⟨heq', hba⟩
    · rw [hpa, hpb] at hlt'
      exact absurd hlt' (not_lt.mpr hprio)
    · exact absurd hba (not_lt.mpr (le_of_lt hab))

def exSa : ClientSession := { id := 0, clientId := some "hi", serverId := none, createdAt := 1, lastActivity := 1, status := SessionStatus.queued, priority := 10 }

def exSb : ClientSession := { id := 1, clientId := some "lo", serverId := none, createdAt := 2, lastActivity := 2, status := SessionStatus.queued, priority := 0 }

/-- The state reached by enqueuing "hi" (priority 10) then "lo"
(priority 0). -/
def exQSt : MMState :=
  runOps [MMOp.enqueue 1 (some "hi") 10, MMOp.enqueue 2 (some "lo") 0]
    initState

theorem c6_priority_fifo_witness :
    (0 ∈ exQSt.queueOrder) ∧ (1 ∈ exQSt.queueOrder) ∧
    exQSt.clientSessions.find? (fun c => c.id == 0) = some exSa ∧
    exQSt.clientSessions.find? (fun c => c.id == 1) = some exSb ∧
    (0 : Nat) < 1 ∧ exSb.priority ≤ exSa.priority ∧
    exQSt.queueOrder.indexOf 0 < exQSt.queueOrder.indexOf 1 :=
  ⟨by decide, by decide, by decide, by decide, by decide, by decide,
    @c6_priority_fifo exQSt
      ⟨[MMOp.enqueue 1 (some "hi") 10, MMOp.enqueue 2 (some "lo") 0], rfl⟩
      0 1 exSa exSb (by decide) (by decide) (by decide) (by decide)
      (by decide) (by decide)⟩

theorem erase_insertIdx_self {n : Nat} :
    ∀ (i : Nat) (q : List Nat), n ∉ q → (q.insertIdx i n).erase n = q := by
  intro i
  induction i with
  | zero =>
    intro q hn
    cases q with
    | nil => simp
    | cons x xs => simp [List.insertIdx]
  | succ i ih =>
    intro q hn
    cases q with
    | nil => simp
    | cons x xs =>
      rw [List.insertIdx_succ_cons]
      have hxn : x ≠ n := fun he => hn (by simp [he])
      rw [List.erase_cons_tail (by simp [hxn])]
      rw [ih xs (fun hm => hn (by simp [hm]))]

theorem erase_append_singleton_self {n : Nat} {q : List Nat} (hn : n ∉ q) :
    (q ++ [n]).erase n = q := by
  rw [List.erase_append_right _ (by simpa using hn)]
  simp

/-- C8: from any reachable state, `addToQueue` followed by `removeSession`
on the returned session's id restores both the session map and the queue to
exactly their prior contents, and a second `removeSession` on the same id is
a no-op (idempotence). -/
theorem c8_enqueue_remove_roundtrip {st : MMState} (h : Reachable st)
    (t : Nat) (cid : Option String) (p : Int) :
    (removeSession (addToQueue t cid p st).2.2.id
        (addToQueue t cid p st).1).1.clientSessions = st.clientSessions ∧
    (removeSession (addToQueue t cid p st).2.2.id
        (addToQueue t cid p st).1).1.queueOrder = st.queueOrder ∧
    removeSession (addToQueue t cid p st).2.2.id
        (removeSession (addToQueue t cid p st).2.2.id
          (addToQueue t cid p st).1).1 =
      ((removeSession (addToQueue t cid p st).2.2.id
          (addToQueue t cid p st).1).1, []) := by
  obtain ⟨⟨-, -, hc1, -⟩, ⟨-, hqres⟩, -⟩ := h.mminv
  have hfr1 : ∀ c ∈ st.clientSessions, c.id ≠ st.nextId :=
    fun c hc => Nat.ne_of_lt (hc1 c hc)
  have hfr2 : st.nextId ∉ st.queueOrder := by
    intro hm
    obtain ⟨c, hcf, -⟩ := hqres st.nextId hm
    have := hc1 c (List.mem_of_find?_eq_some hcf)
    have hcid := find?_key_eq ClientSession.id hcf
    omega
  unfold addToQueue
  dsimp only
  set S : ClientSession :=
    { id := st.nextId, clientId := cid, serverId := none, createdAt := t,
      lastActivity := t, status := .queued, priority := p } with hS
  have hfresh : ∀ c ∈ st.clientSessions, c.id ≠ S.id := hfr1
  have hset : mapSet ClientSession.id S st.clientSessions =
      st.clientSessions ++ [S] := mapSet_of_fresh _ _ _ hfresh
  rw [hset]
  have hnomatch : ∀ b ∈ st.clientSessions, ¬(b.id == S.id) = true := by
    intro b hb
    simp [hfresh b hb]
  have hfind1 : (st.clientSessions ++ [S]).find?
      (fun c => c.id == S.id) = some S := find?_fresh_append hfresh
  have hqerase : ∀ q' : List Nat,
      (match st.queueOrder.findIdx? (fun sessionId =>
        match (st.clientSessions ++ [S]).find? (fun c => c.id == sessionId)
          with
        | some otherSession => decide (otherSession.priority < p)
        | none => false) with
      | none => st.queueOrder ++ [S.id]
      | some i => st.queueOrder.insertIdx i S.id) = q' →
      q'.erase S.id = st.queueOrder := by
    intro q' hq'
    rcases hidx : st.queueOrder.findIdx? (fun sessionId =>
        match (st.clientSessions ++ [S]).find? (fun c => c.id == sessionId)
          with
        | some otherSession => decide (otherSession.priority < p)
        | none => false) with _ | i <;> rw [hidx] at hq' <;> rw [← hq']
    · exact erase_append_singleton_self hfr2
    · exact erase_insertIdx_self i _ hfr2
  -- first removal
  unfold removeSession
  dsimp only
  rw [hfind1]
  dsimp only
  have hsessback : (st.clientSessions ++ [S]).eraseP
      (fun c => c.id == S.id) = st.clientSessions := by
    rw [List.eraseP_append_right _ hnomatch, List.eraseP_cons_of_pos (by simp)]
    simp
  rw [hsessback]
  refine ⟨rfl, hqerase _ rfl, ?_⟩
  -- idempotence: the second find? fails
  have hfind2 : st.clientSessions.find? (fun c => c.id == S.id) = none :=
    List.find?_eq_none.mpr hnomatch
  rw [hfind2]

theorem c8_enqueue_remove_roundtrip_witness :
    (removeSession (addToQueue 3 (some "w") 2 exQSt).2.2.id
        (addToQueue 3 (some "w") 2 exQSt).1).1.clientSessions =
      exQSt.clientSessions ∧
    (removeSession (addToQueue 3 (some "w") 2 exQSt).2.2.id
        (addToQueue 3 (some "w") 2 exQSt).1).1.queueOrder =
      exQSt.queueOrder ∧
    removeSession (addToQueue 3 (some "w") 2 exQSt).2.2.id
        (removeSession (addToQueue 3 (some "w") 2 exQSt).2.2.id
          (addToQueue 3 (some "w") 2 exQSt).1).1 =
      ((removeSession (addToQueue 3 (some "w") 2 exQSt).2.2.id
          (addToQueue 3 (some "w") 2 exQSt).1).1, []) :=
  c8_enqueue_remove_roundtrip
    ⟨[MMOp.enqueue 1 (some "hi") 10, MMOp.enqueue 2 (some "lo") 0], rfl⟩
    3 (some "w") 2

/-- C10: when the target server exists, `updateServerStatus` replaces it in
place by a record `server'` that differs only in the fields designated by
the message type; `id`, `address`, `port`, `https` and `metadata` are never
changed; any message type outside the five handled ones leaves the record
entirely unchanged; and `serverUpdated` is emitted in every case. -/
def updSt (st : MMState) (serverId : Nat) (server' : CirrusServer) :
    MMState :=
  let servers' :=
    updateFirst (fun s => s.id == serverId) (fun _ => server')
      st.cirrusServers
  { st with cirrusServers := servers' }

theorem c10_update_frame {st : MMState} (t serverId : Nat) (mt : MsgType)
    {server : CirrusServer}
    (hf : st.cirrusServers.find? (fun s => s.id == serverId) = some server) :
    ∃ server' : CirrusServer,
      updateServerStatus t serverId mt st =
        (updSt st serverId server', [MMEvent.serverUpdated server']) ∧
      server'.id = server.id ∧ server'.address = server.address ∧
      server'.port = server.port ∧ server'.https = server.https ∧
      server'.metadata = server.metadata ∧
      (mt = .streamerConnected ∨ mt = .streamerDisconnected →
        server'.numConnectedClients = server.numConnectedClients ∧
        server'.lastPingReceived = server.lastPingReceived ∧
        server'.lastRedirect = server.lastRedirect) ∧
      (mt = .streamerConnected → server'.ready = true) ∧
      (mt = .streamerDisconnected → server'.ready = false) ∧
      (mt = .clientConnected ∨ mt = .clientDisconnected →
        server'.ready = server.ready ∧
        server'.lastPingReceived = server.lastPingReceived) ∧
      (mt = .clientConnected → server'.lastRedirect = server.lastRedirect ∧
        server'.numConnectedClients = server.numConnectedClients + 1) ∧
      (mt = .ping → server'.ready = server.ready ∧
        server'.numConnectedClients = server.numConnectedClients ∧
        server'.lastRedirect = server.lastRedirect ∧
        server'.lastPingReceived = t) ∧
      (mt = .connect ∨ mt = .disconnect ∨ mt = .healthCheck →
        server' = server) := by
  unfold updateServerStatus
  rw [hf]
  dsimp only
  refine ⟨_, rfl, ?_, ?_, ?_, ?_, ?_, ?_, ?_, ?_, ?_, ?_, ?_, ?_⟩ <;>
    cases mt <;> (try (intro hcase)) <;>
    first
      | rfl
      | (dsimp only; split <;> rfl)
      | (constructor <;> (first | rfl | (dsimp only; split <;> rfl)))
      | (refine ⟨?_, ?_, ?_⟩ <;> (first | rfl | (dsimp only; split <;> rfl)))
      | (refine ⟨?_, ?_, ?_, ?_⟩ <;>
          (first | rfl | (dsimp only; split <;> rfl)))
      | (exact absurd hcase (by decide))
      | (rcases hcase with hcase | hcase <;>
          first
            | rfl
            | (dsimp only; split <;> rfl)
            | (constructor <;> (first | rfl | (dsimp only; split <;> rfl)))
            | (refine ⟨?_, ?_, ?_⟩ <;>
                (first | rfl | (dsimp only; split <;> rfl)))
            | (exact absurd hcase (by decide)))

/-- The single server held by `exSt`. -/
def exServer0 : CirrusServer :=
  { id := 0, address := "10.0.0.1", port := 8080, https := false,
    numConnectedClients := 0, lastPingReceived := 5, ready := true,
    lastRedirect := none, metadata := [] }

theorem c10_update_frame_witness :
    ∃ server' : CirrusServer,
      updateServerStatus 7 0 MsgType.ping exSt =
        (updSt exSt 0 server', [MMEvent.serverUpdated server']) ∧
      server'.id = exServer0.id ∧ server'.address = exServer0.address ∧
      server'.port = exServer0.port ∧ server'.https = exServer0.https ∧
      server'.metadata = exServer0.metadata ∧
      (MsgType.ping = .streamerConnected ∨
          MsgType.ping = .streamerDisconnected →
        server'.numConnectedClients = exServer0.numConnectedClients ∧
        server'.lastPingReceived = exServer0.lastPingReceived ∧
        server'.lastRedirect = exServer0.lastRedirect) ∧
      (MsgType.ping = .streamerConnected → server'.ready = true) ∧
      (MsgType.ping = .streamerDisconnected → server'.ready = false) ∧
      (MsgType.ping = .clientConnected ∨
          MsgType.ping = .clientDisconnected →
        server'.ready = exServer0.ready ∧
        server'.lastPingReceived = exServer0.lastPingReceived) ∧
      (MsgType.ping = .clientConnected →
        server'.lastRedirect = exServer0.lastRedirect ∧
        server'.numConnectedClients = exServer0.numConnectedClients + 1) ∧
      (MsgType.ping = .ping → server'.ready = exServer0.ready ∧
        server'.numConnectedClients = exServer0.numConnectedClients ∧
        server'.lastRedirect = exServer0.lastRedirect ∧
        server'.lastPingReceived = 7) ∧
      (MsgType.ping = .connect ∨ MsgType.ping = .disconnect ∨
          MsgType.ping = .healthCheck →
        server' = exServer0) :=
  @c10_update_frame exSt 7 0 MsgType.ping exServer0 (by decide)

theorem processNextInQueue_nextId (t : Nat) (st : MMState) :
    (processNextInQueue t st).1.nextId = st.nextId := by
  unfold processNextInQueue
  rcases hq : st.queueOrder with _ | ⟨sid, rest⟩
  · rfl
  · rcases hg : getAvailableServer t st with ⟨st1, srvOpt⟩
    have hfst : (getAvailableServer t st).1 = st1 := by rw [hg]
    have hn1 : st1.nextId = st.nextId := by
      rw [← hfst, getAvailableServer_nextId]
    rcases srvOpt with _ | server
    · exact hn1
    · dsimp only
      rcases hfind : st1.clientSessions.find? (fun c => c.id == sid)
        with _ | session
      · rw [hfind]; exact hn1
      · rw [hfind]; exact hn1

theorem removeSession_nextId (sid : Nat) (st : MMState) :
    (removeSession sid st).1.nextId = st.nextId := by
  unfold removeSession
  cases st.clientSessions.find? (fun c => c.id == sid) <;> rfl

theorem cleanupExpiredSessions_frame (t m : Nat) (st : MMState) :
    (cleanupExpiredSessions t m st).1.cirrusServers = st.cirrusServers ∧
    (cleanupExpiredSessions t m st).1.nextId = st.nextId := by
  unfold cleanupExpiredSessions
  suffices H : ∀ (l : List ClientSession) (acc : MMState × List MMEvent),
      ((l.foldl (fun acc session =>
        if isExpired t session.lastActivity m then
          let r := removeSession session.id acc.1
          (r.1, acc.2 ++ r.2)
        else acc) acc).1).cirrusServers = acc.1.cirrusServers ∧
      ((l.foldl (fun acc session =>
        if isExpired t session.lastActivity m then
          let r := removeSession session.id acc.1
          (r.1, acc.2 ++ r.2)
        else acc) acc).1).nextId = acc.1.nextId by
    exact H st.clientSessions (st, [])
  intro l
  induction l with
  | nil => exact fun acc => ⟨rfl, rfl⟩
  | cons x xs ih =>
    intro acc
    simp only [List.foldl_cons]
    by_cases hx : isExpired t x.lastActivity m
    · simp only [hx, if_true]
      obtain ⟨h1, h2⟩ := ih (( removeSession x.id acc.1).1,
        acc.2 ++ (removeSession x.id acc.1).2)
      refine ⟨?_, ?_⟩
      · rw [h1]
        exact removeSession_servers x.id acc.1
      · rw [h2]
        exact removeSession_nextId x.id acc.1
    · simp only [hx, if_false]
      exact ih acc

/-- The clock values mentioned by an operation lie in `[lo, hi]`. -/
def opInWindow (lo hi : Nat) : MMOp → Prop
  | .register u _ => lo ≤ u ∧ u ≤ hi
  | .update u _ _ => lo ≤ u ∧ u ≤ hi
  | .acquire u => lo ≤ u ∧ u ≤ hi
  | .enqueue u _ _ => lo ≤ u ∧ u ≤ hi
  | .processNext u => lo ≤ u ∧ u ≤ hi
  | .drain u => lo ≤ u ∧ u ≤ hi
  | .sweepSessions u _ => lo ≤ u ∧ u ≤ hi
  | .sweepServers u => lo ≤ u ∧ u ≤ hi
  | .unregister _ => True
  | .remove _ => True

/-- The operation is not a `clientDisconnected` message for node `nid`. -/
def noClientDisconnect (nid : Nat) : MMOp → Prop
  | .update _ i mt => ¬(i = nid ∧ mt = MsgType.clientDisconnected)
  | _ => True

/-- Every registry entry carrying id `nid` has `lastRedirect` pinned in
`[lo, hi]`; ids stay below the counter so re-registration cannot mint `nid`
again. -/
def RedirectPinned (nid lo hi : Nat) (st : MMState) : Prop :=
  nid < st.nextId ∧
  (∀ s ∈ st.cirrusServers, s.id < st.nextId) ∧
  (∀ s ∈ st.cirrusServers, s.id = nid →
    ∃ u, s.lastRedirect = some u ∧ lo ≤ u ∧ u ≤ hi)

theorem RedirectPinned_of_eq {nid lo hi : Nat} {s s' : MMState}
    (h : RedirectPinned nid lo hi s)
    (hsrv : s'.cirrusServers = s.cirrusServers)
    (hn : s'.nextId = s.nextId) : RedirectPinned nid lo hi s' := by
  obtain ⟨h1, h2, h3⟩ := h
  exact ⟨hn ▸ h1, by rw [hsrv, hn]; exact h2, by rw [hsrv]; exact h3⟩

theorem RedirectPinned_getAvailableServer {nid lo hi u : Nat} {st : MMState}
    (hu1 : lo ≤ u) (hu2 : u ≤ hi) (h : RedirectPinned nid lo hi st) :
    RedirectPinned nid lo hi (getAvailableServer u st).1 := by
  obtain ⟨h1, h2, h3⟩ := h
  unfold getAvailableServer
  rcases hf : st.cirrusServers.find? (fun s => isServerAvailable u s)
    with _ | srv
  · exact ⟨h1, h2, h3⟩
  · dsimp only
    refine ⟨h1, ?_, ?_⟩
    · intro s hs
      rcases mem_updateFirst hs with hs | ⟨x, hx, -, rfl⟩
      · exact h2 s hs
      · exact h2 x hx
    · intro s hs hid
      rcases mem_updateFirst hs with hs | ⟨x, hx, -, rfl⟩
      · exact h3 s hs hid
      · exact ⟨u, rfl, hu1, hu2⟩

theorem RedirectPinned_unregisterServer {nid lo hi : Nat} {st : MMState}
    (i : Nat) (h : RedirectPinned nid lo hi st) :
    RedirectPinned nid lo hi (unregisterServer i st).1 := by
  obtain ⟨h1, h2, h3⟩ := h
  unfold unregisterServer
  rcases hf : st.cirrusServers.find? (fun s => s.id == i) with _ | srv
  · rw [hf]; exact ⟨h1, h2, h3⟩
  · rw [hf]
    dsimp only
    have hsub := @List.eraseP_sublist _ (fun s => s.id == i) st.cirrusServers
    exact ⟨h1, fun s hs => h2 s (hsub.mem hs),
      fun s hs hid => h3 s (hsub.mem hs) hid⟩

theorem RedirectPinned_processNextInQueue {nid lo hi u : Nat} {st : MMState}
    (hu1 : lo ≤ u) (hu2 : u ≤ hi) (h : RedirectPinned nid lo hi st) :
    RedirectPinned nid lo hi (processNextInQueue u st).1 := by
  rcases processNextInQueue_servers u st with he | he
  · exact RedirectPinned_of_eq h he (processNextInQueue_nextId u st)
  · refine RedirectPinned_of_eq
      (RedirectPinned_getAvailableServer hu1 hu2 h) he ?_
    rw [processNextInQueue_nextId, getAvailableServer_nextId]

theorem RedirectPinned_processQueue {nid lo hi u : Nat}
    (hu1 : lo ≤ u) (hu2 : u ≤ hi) :
    ∀ st : MMState, RedirectPinned nid lo hi st →
      RedirectPinned nid lo hi (processQueue u st).1 := by
  refine processQueue.induct u (fun st => RedirectPinned nid lo hi st →
    RedirectPinned nid lo hi (processQueue u st).1) ?_ ?_
  · intro x st' evs heq ih hx
    rw [processQueue.eq_def]
    split
    · rename_i st2 evs2 heq2
      rw [heq] at heq2
      simp only [Prod.mk.injEq] at heq2
      have hstep := RedirectPinned_processNextInQueue hu1 hu2 hx
      rw [heq] at hstep
      dsimp only
      rw [← heq2.1]
      exact ih hstep
    · rename_i st2 evs2 heq2
      rw [heq] at heq2
      simp at heq2
  · intro x st' evs heq hx
    rw [processQueue.eq_def]
    split
    · rename_i st2 evs2 heq2
      rw [heq] at heq2
      simp at heq2
    · rename_i st2 evs2 heq2
      rw [heq] at heq2
      simp only [Prod.mk.injEq] at heq2
      have hstep := RedirectPinned_processNextInQueue hu1 hu2 hx
      rw [heq] at hstep
      rw [← heq2.1]
      exact hstep

theorem RedirectPinned_register_aux {nid lo hi : Nat} {st : MMState}
    {pre : List CirrusServer} {server : CirrusServer}
    (hpre : ∀ y ∈ pre, y ∈ st.cirrusServers) (hid : server.id = st.nextId)
    (h : RedirectPinned nid lo hi st) :
    RedirectPinned nid lo hi
      { st with cirrusServers := pre ++ [server],
                nextId := st.nextId + 1 } := by
  obtain ⟨h1, h2, h3⟩ := h
  refine ⟨Nat.lt_succ_of_lt h1, ?_, ?_⟩
  · intro s hs
    rcases List.mem_append.mp hs with hs | hs
    · exact Nat.lt_succ_of_lt (h2 s (hpre s hs))
    · simp only [List.mem_singleton] at hs
      subst hs
      rw [hid]
      exact Nat.lt_succ_self _
  · intro s hs hsid
    rcases List.mem_append.mp hs with hs | hs
    · exact h3 s (hpre s hs) hsid
    · simp only [List.mem_singleton] at hs
      subst hs
      rw [hid] at hsid
      exact absurd hsid.symm (Nat.ne_of_lt h1)

theorem RedirectPinned_step {nid lo hi : Nat} {st : MMState} (op : MMOp)
    (hw : opInWindow lo hi op) (hnc : noClientDisconnect nid op)
    (h : RedirectPinned nid lo hi st) :
    RedirectPinned nid lo hi (step st op) := by
  cases op with
  | register u msg =>
    simp only [step]
    unfold registerServer
    dsimp only
    rcases hreg : findServerByAddress msg.address msg.port st with _ | ex
    · exact RedirectPinned_register_aux (fun y hy => hy) rfl h
    · exact RedirectPinned_register_aux
        (fun y hy => List.mem_of_mem_eraseP hy) rfl h
  | update u i mt =>
    obtain ⟨h1, h2, h3⟩ := h
    simp only [step]
    unfold updateServerStatus
    rcases hf : st.cirrusServers.find? (fun s => s.id == i) with _ | server
    · rw [hf]; exact ⟨h1, h2, h3⟩
    · rw [hf]
      dsimp only
      have hsid : server.id = i := find?_key_eq CirrusServer.id hf
      have hmem := List.mem_of_find?_eq_some hf
      refine ⟨h1, ?_, ?_⟩
      · intro s hs
        rcases mem_updateFirst hs with hs | ⟨x, hx, -, rfl⟩
        · exact h2 s hs
        · have hlt := h2 server hmem
          cases mt <;> dsimp only
          · exact hlt
          · exact hlt
          · exact hlt
          · exact hlt
          · exact hlt
          · split <;> exact hlt
          · exact hlt
          · exact hlt
      · intro s hs hsnid
        rcases mem_updateFirst hs with hs | ⟨x, hx, -, rfl⟩
        · exact h3 s hs hsnid
        · have hsrv_id : server.id = nid := by
            revert hsnid
            cases mt <;> dsimp only <;> intro hsnid <;>
              first
                | exact hsnid
                | (split at hsnid <;> exact hsnid)
          cases mt with
          | clientDisconnected =>
            exact absurd ⟨hsid.symm.trans hsrv_id, rfl⟩ hnc
          | connect => exact h3 server hmem hsrv_id
          | disconnect => exact h3 server hmem hsrv_id
          | streamerConnected => exact h3 server hmem hsrv_id
          | streamerDisconnected => exact h3 server hmem hsrv_id
          | clientConnected => exact h3 server hmem hsrv_id
          | ping => exact h3 server hmem hsrv_id
          | healthCheck => exact h3 server hmem hsrv_id
  | unregister i => exact RedirectPinned_unregisterServer i h
  | acquire u => exact RedirectPinned_getAvailableServer hw.1 hw.2 h
  | enqueue u cid p =>
    obtain ⟨h1, h2, h3⟩ := h
    refine ⟨Nat.lt_succ_of_lt h1, ?_, ?_⟩
    · intro s hs
      simp only [step] at hs
      rw [addToQueue_servers] at hs
      exact Nat.lt_succ_of_lt (h2 s hs)
    · intro s hs hid
      simp only [step] at hs
      rw [addToQueue_servers] at hs
      exact h3 s hs hid
  | processNext u =>
    exact RedirectPinned_processNextInQueue hw.1 hw.2 h
  | drain u => exact RedirectPinned_processQueue hw.1 hw.2 st h
  | remove sid =>
    exact RedirectPinned_of_eq h (removeSession_servers sid st)
      (removeSession_nextId sid st)
  | sweepSessions u m =>
    obtain ⟨hs, hn⟩ := cleanupExpiredSessions_frame u m st
    exact RedirectPinned_of_eq h hs hn
  | sweepServers u =>
    simp only [step]
    unfold cleanupStaleServers
    suffices H : ∀ (l : List CirrusServer) (acc : MMState × List MMEvent),
        RedirectPinned nid lo hi acc.1 →
        RedirectPinned nid lo hi ((l.foldl (fun acc server =>
          if isExpired u server.lastPingReceived 120000 then
            let r := unregisterServer server.id acc.1
            (r.1, acc.2 ++ r.2)
          else acc) acc).1) by
      exact H st.cirrusServers (st, []) h
    intro l
    induction l with
    | nil => exact fun acc hacc => hacc
    | cons x xs ih =>
      intro acc hacc
      simp only [List.foldl_cons]
      apply ih
      by_cases hx : isExpired u x.lastPingReceived 120000
      · simp only [hx, if_true]
        exact RedirectPinned_unregisterServer x.id hacc
      · simp only [hx, if_false]
        exact hacc

theorem find?_decomp {p : α → Bool} :
    ∀ {l : List α} {x : α}, l.find? p = some x →
      ∃ A B, l = A ++ x :: B ∧ ∀ a ∈ A, p a = false := by
  intro l
  induction l with
  | nil => intro x h; simp at h
  | cons y ys ih =>
    intro x h
    rcases hy : p y with _ | _
    · rw [List.find?_cons, hy] at h
      simp only [Bool.false_eq_true, if_false] at h
      obtain ⟨A, B, hl, hA⟩ := ih h
      refine ⟨y :: A, B, by rw [hl, List.cons_append], ?_⟩
      intro a ha
      rcases List.mem_cons.mp ha with rfl | ha
      · exact hy
      · exact hA a ha
    · rw [List.find?_cons, hy] at h
      simp only [Option.some.injEq] at h
      exact ⟨[], ys, by simp [h], by simp⟩

theorem updateFirst_decomp {p : α → Bool} {f : α → α} {x : α} :
    ∀ {A : List α} (B : List α), (∀ a ∈ A, p a = false) → p x = true →
      updateFirst p f (A ++ x :: B) = A ++ f x :: B := by
  intro A
  induction A with
  | nil =>
    intro B _ hx
    simp [updateFirst, hx]
  | cons a as ih =>
    intro B hA hx
    have ha : p a = false := hA a (by simp)
    simp only [List.cons_append, updateFirst, ha, Bool.false_eq_true,
      if_false, List.cons.injEq, true_and]
    exact ih B (fun a' ha' => hA a' (by simp [ha'])) hx

theorem RedirectPinned_establish {st : MMState} {t tp : Nat}
    {N : CirrusServer}
    (hnd : (st.cirrusServers.map CirrusServer.id).Nodup)
    (hw : ∀ s ∈ st.cirrusServers, s.id < st.nextId)
    (httr : t ≤ tp)
    (hacq : (getAvailableServer t st).2 = some N) :
    RedirectPinned N.id t tp (getAvailableServer t st).1 := by
  unfold getAvailableServer at hacq ⊢
  rcases hf : st.cirrusServers.find? (fun s => isServerAvailable t s)
    with _ | s₀ <;> rw [hf] at hacq
  · simp at hacq
  · dsimp only at hacq ⊢
    have hN : N = { s₀ with lastRedirect := some t } :=
      (Option.some.inj hacq).symm
    have hmem := List.mem_of_find?_eq_some hf
    have hNid : N.id = s₀.id := by rw [hN]
    obtain ⟨A, B, hl, hA⟩ := find?_decomp hf
    have hupd : updateFirst (fun s => isServerAvailable t s)
        (fun s => { s with lastRedirect := some t }) st.cirrusServers =
        A ++ { s₀ with lastRedirect := some t } :: B := by
      rw [hl]
      exact updateFirst_decomp B hA (List.find?_some hf)
    have hidnodup : s₀.id ∉ A.map CirrusServer.id ∧
        s₀.id ∉ B.map CirrusServer.id := by
      rw [hl] at hnd
      rw [List.map_append, List.map_cons, List.nodup_append] at hnd
      obtain ⟨-, hnd2, hdisj⟩ := hnd
      rw [List.nodup_cons] at hnd2
      exact ⟨fun hm => hdisj hm (by simp), hnd2.1⟩
    refine ⟨hNid ▸ hw s₀ hmem, ?_, ?_⟩
    · intro s hs
      have : s.id ∈ (updateFirst (fun s => isServerAvailable t s)
          (fun s => { s with lastRedirect := some t })
          st.cirrusServers).map CirrusServer.id := List.mem_map_of_mem _ hs
      rw [map_key_updateFirst_any CirrusServer.id
        (fun s => isServerAvailable t s)
        (fun s => { s with lastRedirect := some t })
        st.cirrusServers (fun x _ => rfl)] at this
      rcases List.mem_map.mp this with ⟨x, hx, hid⟩
      exact hid ▸ hw x hx
    · intro s hs hid
      rw [hupd] at hs
      rw [hNid] at hid
      rcases List.mem_append.mp hs with hs | hs
      · exact absurd (hid ▸ List.mem_map_of_mem CirrusServer.id hs)
          hidnodup.1
      · rcases List.mem_cons.mp hs with rfl | hs
        · exact ⟨t, rfl, le_refl t, httr⟩
        · exact absurd (hid ▸ List.mem_map_of_mem CirrusServer.id hs)
            hidnodup.2

theorem RedirectPinned_runOps {nid lo hi : Nat} (ops : List MMOp)
    (hops : ∀ op ∈ ops, opInWindow lo hi op ∧ noClientDisconnect nid op) :
    ∀ st : MMState, RedirectPinned nid lo hi st →
      RedirectPinned nid lo hi (runOps ops st) := by
  induction ops with
  | nil => exact fun st h => h
  | cons op ops ih =>
    intro st h
    have hop := hops op (by simp)
    exact ih (fun o ho => hops o (by simp [ho])) (step st op)
      (RedirectPinned_step op hop.1 hop.2 h)

/-- C2: if `getAvailableServer` at time `t > 0` returns node `N`, then any
later call at time `tp` with `tp − t < 10 000` ms — after an arbitrary
sequence of engine operations whose clock values lie in `[t, tp]`, none of
which is a `clientDisconnected` message for `N` — does not return `N` (no
node with `N`'s id): the assignment cooldown `lastRedirect` stays pinned
within the window, keeping `N` unavailable. -/
theorem c2_cooldown {st : MMState} {t tp : Nat} {N : CirrusServer}
    {ops : List MMOp}
    (hnd : (st.cirrusServers.map CirrusServer.id).Nodup)
    (hw : ∀ s ∈ st.cirrusServers, s.id < st.nextId)
    (ht : 0 < t) (httr : t ≤ tp) (hcool : tp - t < 10000)
    (hacq : (getAvailableServer t st).2 = some N)
    (hops : ∀ op ∈ ops, opInWindow t tp op ∧ noClientDisconnect N.id op) :
    ∀ N', (getAvailableServer tp
        (runOps ops (getAvailableServer t st).1)).2 = some N' →
      N'.id ≠ N.id := by
  intro N' hN'
  have hpin := RedirectPinned_runOps ops hops _
    (RedirectPinned_establish hnd hw httr hacq)
  unfold getAvailableServer at hN'
  split at hN'
  · rename_i sp hf
    dsimp only at hN'
    have hN'eq : N' = { sp with lastRedirect := some tp } :=
      (Option.some.inj hN').symm
    intro hid
    have hspid : sp.id = N.id := by rw [hN'eq] at hid; exact hid
    obtain ⟨u, hu, hu1, hu2⟩ :=
      hpin.2.2 sp (List.mem_of_find?_eq_some hf) hspid
    have hav := List.find?_some hf
    rw [isServerAvailable_iff] at hav
    have hcd := hav.2.2
    unfold cooldownUntil at hcd
    rw [hu] at hcd
    dsimp only at hcd
    have hune : u ≠ 0 := by omega
    rw [if_neg hune] at hcd
    omega
  · simp at hN'

theorem c2_cooldown_witness :
    ((exSt.cirrusServers.map CirrusServer.id).Nodup) ∧
    (∀ s ∈ exSt.cirrusServers, s.id < exSt.nextId) ∧
    (getAvailableServer 6 exSt).2 = some exN ∧
    (∀ N', (getAvailableServer 100
        (runOps [MMOp.update 7 0 MsgType.ping]
          (getAvailableServer 6 exSt).1)).2 = some N' →
      N'.id ≠ exN.id) := by
  refine ⟨by decide, by decide, by decide, ?_⟩
  refine c2_cooldown (by decide) (by decide) (by decide) (by decide)
    (by decide) (by decide) ?_
  intro op hop
  simp only [List.mem_singleton] at hop
  subst hop
  constructor
  · unfold opInWindow
    exact ⟨by decide, by decide⟩
  · unfold noClientDisconnect
    intro hc
    exact absurd hc.2 (by decide)

/-- A second ready node on a different endpoint. -/
def exMsg2 : ConnectMsg :=
  { address := "10.0.0.2", port := 8080, ready := some true,
    playerConnected := some false }

/-- Two queued sessions and two eligible nodes. -/
def exC1St : MMState :=
  runOps [MMOp.enqueue 1 none 0, MMOp.enqueue 1 none 0,
    MMOp.register 1 exMsg, MMOp.register 1 exMsg2] initState

/-- C1 counterexample: with 2 queued sessions and 2 eligible nodes, a single
call to `processNextInQueue` assigns only one session and leaves the queue
non-empty — refuting "one call leaves the queue empty". -/
theorem c1_counterexample :
    exC1St.queueOrder.length = 2 ∧
    exC1St.cirrusServers.countP (fun s => isServerAvailable 2 s) = 2 ∧
    (processNextInQueue 2 exC1St).2.2 = true ∧
    (processNextInQueue 2 exC1St).1.queueOrder ≠ [] := by decide

/-- Setting the assignment cooldown at a positive time makes a node
unavailable at that same instant. -/
theorem isServerAvailable_after_redirect {t : Nat} (ht : 0 < t)
    (a : CirrusServer) :
    isServerAvailable t { a with lastRedirect := some t } = false := by
  rcases hb : isServerAvailable t { a with lastRedirect := some t } with _ | _
  · rfl
  · exfalso
    rw [isServerAvailable_iff] at hb
    have hcd := hb.2.2
    unfold cooldownUntil at hcd
    dsimp only at hcd
    rw [if_neg (Nat.pos_iff_ne_zero.mp ht)] at hcd
    omega

/-- The registry after `getAvailableServer` stamps the first available
node's `lastRedirect`. -/
def redirectAll (t : Nat) (servers : List CirrusServer) :
    List CirrusServer :=
  updateFirst (fun s => isServerAvailable t s)
    (fun s => { s with lastRedirect := some t }) servers

/-- The session record after assignment to a server. -/
def assignSession (t srvId : Nat) (c : ClientSession) : ClientSession :=
  { c with serverId := some srvId, status := SessionStatus.connected,
           lastActivity := t }

/-- The state after one successful `processNextInQueue` step. -/
def drainStepState (t : Nat) (st : MMState) (sid : Nat) (c : ClientSession)
    (srvId : Nat) (rest : List Nat) : MMState :=
  { st with cirrusServers := redirectAll t st.cirrusServers,
            clientSessions :=
              updateFirst (fun x => x.id == sid)
                (fun _ => assignSession t srvId c) st.clientSessions,
            queueOrder := rest }

theorem c1_drain_aux (t : Nat) (ht : 0 < t) :
    ∀ n (st : MMState), st.queueOrder.length = n →
      (∀ sid ∈ st.queueOrder, ∃ c,
        st.clientSessions.find? (fun x => x.id == sid) = some c) →
      st.queueOrder.length ≤
        st.cirrusServers.countP (fun s => isServerAvailable t s) →
      (processQueue t st).1.queueOrder = [] := by
  intro n
  induction n using Nat.strong_induction_on with
  | _ n ih =>
    intro st hlen hres hk
    rcases hq : st.queueOrder with _ | ⟨sid, rest⟩
    · have hpn : processNextInQueue t st = (st, [], false) := by
        unfold processNextInQueue
        rw [hq]
      rw [processQueue.eq_def]
      split
      · rename_i st2 evs2 heq2
        rw [hpn] at heq2
        simp at heq2
      · rename_i st2 evs2 heq2
        rw [hpn] at heq2
        simp only [Prod.mk.injEq] at heq2
        rw [← heq2.1, hq]
    · have hpos : 0 < st.cirrusServers.countP
          (fun s => isServerAvailable t s) := by
        rw [hq] at hk
        simp only [List.length_cons] at hk
        omega
      rcases hgf : st.cirrusServers.find? (fun s => isServerAvailable t s)
        with _ | srv
      · exfalso
        have hn : ∀ a ∈ st.cirrusServers, ¬(isServerAvailable t a = true) :=
          List.find?_eq_none.mp hgf
        have hz : st.cirrusServers.countP
            (fun s => isServerAvailable t s) = 0 :=
          List.countP_eq_zero.mpr hn
        omega
      · have hgas : getAvailableServer t st =
            ({ st with cirrusServers := redirectAll t st.cirrusServers },
             some { srv with lastRedirect := some t }) := by
          unfold getAvailableServer redirectAll
          rw [hgf]
        obtain ⟨c, hc⟩ := hres sid (by rw [hq]; simp)
        have hcid : c.id = sid := find?_key_eq ClientSession.id hc
        have hpn : processNextInQueue t st =
            (drainStepState t st sid c srv.id rest,
             [MMEvent.clientAssigned (assignSession t srv.id c)
               { srv with lastRedirect := some t }], true) := by
          unfold processNextInQueue
          rw [hq, hgas]
          dsimp only
          rw [hc]
          unfold drainStepState redirectAll assignSession
          rfl
        rw [processQueue.eq_def]
        split
        · rename_i st2 evs2 heq2
          rw [hpn] at heq2
          simp only [Prod.mk.injEq] at heq2
          dsimp only
          rw [← heq2.1]
          have hcnt : (redirectAll t st.cirrusServers).countP
                (fun s => isServerAvailable t s) + 1 =
              st.cirrusServers.countP (fun s => isServerAvailable t s) := by
            unfold redirectAll
            exact countP_updateFirst hgf
              (fun a _ => isServerAvailable_after_redirect ht a)
          refine ih rest.length ?_ _ rfl ?_ ?_
          · rw [← hlen, hq]
            simp
          · intro sid' hm
            by_cases hss : sid' = sid
            · subst hss
              refine ⟨assignSession t srv.id c, ?_⟩
              unfold drainStepState
              dsimp only
              have hfeq := find?_updateFirst_eq ClientSession.id sid'
                (fun _ => assignSession t srv.id c)
                st.clientSessions (fun x _ => hcid)
              rw [hfeq, hc]
              rfl
            · have hm' : sid' ∈ rest := hm
              obtain ⟨c', hc'⟩ := hres sid'
                (by rw [hq]; exact List.mem_cons_of_mem _ hm')
              refine ⟨c', ?_⟩
              unfold drainStepState
              dsimp only
              have hfne := find?_updateFirst_ne ClientSession.id sid sid'
                (fun _ => assignSession t srv.id c)
                st.clientSessions (fun x _ => hcid) hss
              rw [hfne]
              exact hc'
          · unfold drainStepState
            dsimp only
            rw [hq] at hk
            simp only [List.length_cons] at hk
            omega
        · rename_i st2 evs2 heq2
          rw [hpn] at heq2
          simp at heq2

/-- C1 amended: a single `processNextInQueue` call performs at most one
assignment — on success it pops the head of the queue, marks that session
`connected`, binds its `serverId` to the acquired node, bumps
`lastActivity` to `now` and emits `clientAssigned` — while the drain-while
loop lives in the caller (`processQueue` in the application class), which
repeats `processNextInQueue` until it returns `false`: with every queued id
resolvable and at least as many available nodes as queued sessions (at a
positive clock), one `processQueue` call leaves the queue empty. -/
theorem c1_step_and_drain {st : MMState} (t : Nat) (ht : 0 < t)
    (hres : ∀ sid ∈ st.queueOrder, ∃ c,
      st.clientSessions.find? (fun x => x.id == sid) = some c)
    (hk : st.queueOrder.length ≤
      st.cirrusServers.countP (fun s => isServerAvailable t s)) :
    (processQueue t st).1.queueOrder = [] ∧
    (∀ st' evs, processNextInQueue t st = (st', evs, true) →
      ∃ sid rest srv sess,
        st.queueOrder = sid :: rest ∧ st'.queueOrder = rest ∧
        (getAvailableServer t st).2 = some srv ∧
        st'.clientSessions.find? (fun x => x.id == sid) = some sess ∧
        sess.status = SessionStatus.connected ∧
        sess.serverId = some srv.id ∧ sess.lastActivity = t ∧
        evs = [MMEvent.clientAssigned sess srv]) := by
  constructor
  · exact c1_drain_aux t ht st.queueOrder.length st rfl hres hk
  · intro st' evs heq
    rcases hq : st.queueOrder with _ | ⟨sid, rest⟩
    · unfold processNextInQueue at heq
      rw [hq] at heq
      simp at heq
    · rcases hgf : st.cirrusServers.find? (fun s => isServerAvailable t s)
        with _ | srv
      · have hgas : getAvailableServer t st = (st, none) := by
          unfold getAvailableServer
          rw [hgf]
        unfold processNextInQueue at heq
        rw [hq, hgas] at heq
        simp at heq
      · have hgas : getAvailableServer t st =
            ({ st with cirrusServers := redirectAll t st.cirrusServers },
             some { srv with lastRedirect := some t }) := by
          unfold getAvailableServer redirectAll
          rw [hgf]
        obtain ⟨c, hc⟩ := hres sid (by rw [hq]; simp)
        have hcid := find?_key_eq ClientSession.id hc
        have hpn : processNextInQueue t st =
            (drainStepState t st sid c srv.id rest,
             [MMEvent.clientAssigned (assignSession t srv.id c)
               { srv with lastRedirect := some t }], true) := by
          unfold processNextInQueue
          rw [hq, hgas]
          dsimp only
          rw [hc]
          unfold drainStepState redirectAll assignSession
          rfl
        rw [hpn] at heq
        simp only [Prod.mk.injEq] at heq
        refine ⟨sid, rest, { srv with lastRedirect := some t },
          assignSession t srv.id c, rfl, ?_, ?_, ?_, rfl, rfl, rfl, ?_⟩
        · rw [← heq.1]
          rfl
        · rw [hgas]
        · rw [← heq.1]
          unfold drainStepState
          dsimp only
          have hfeq := find?_updateFirst_eq ClientSession.id sid
            (fun _ => assignSession t srv.id c) st.clientSessions
            (fun x _ => hcid)
          rw [hfeq, hc]
          rfl
        · exact heq.2.1.symm

def exC1S0 : ClientSession := { id := 0, clientId := none, serverId := none, createdAt := 1, lastActivity := 1, status := SessionStatus.queued, priority := 0 }

def exC1S1 : ClientSession := { id := 1, clientId := none, serverId := none, createdAt := 1, lastActivity := 1, status := SessionStatus.queued, priority := 0 }

theorem c1_step_and_drain_witness :
    (processQueue 2 exC1St).1.queueOrder = [] ∧
    (∀ st' evs, processNextInQueue 2 exC1St = (st', evs, true) →
      ∃ sid rest srv sess,
        exC1St.queueOrder = sid :: rest ∧ st'.queueOrder = rest ∧
        (getAvailableServer 2 exC1St).2 = some srv ∧
        st'.clientSessions.find? (fun x => x.id == sid) = some sess ∧
        sess.status = SessionStatus.connected ∧
        sess.serverId = some srv.id ∧ sess.lastActivity = 2 ∧
        evs = [MMEvent.clientAssigned sess srv]) := by
  refine c1_step_and_drain 2 (by decide) ?_ (by decide)
  intro sid hm
  have hm' : sid = 0 ∨ sid = 1 := by
    have hql : exC1St.queueOrder = [0, 1] := by decide
    rw [hql] at hm
    simpa using hm
  rcases hm' with rfl | rfl
  · exact ⟨exC1S0, by decide⟩
  · exact ⟨exC1S1, by decide⟩
